import Mathlib

/-!
Verification development for the FrAD (Fourier Analogue-in-Digital) codec core.

The definitions below are a shallow embedding of the Rust sources:

* src/src/libfrad/common.rs          (CRC-32 and CRC-16/ANSI, frame sync word)
* src/src/tools/ecc/mod.rs           (decode_rs / unecc block layer)
* src/src/libfrad/fourier/tools/p1tools.rs (exponential Golomb-Rice codec)
* src/src/fourier/mod.rs             (profile 0 analogue / digital)
* src/src/decode.rs                  (decode engine state machine)

Machine integers are modelled as Nat / Int with explicit wrapping where the
Rust release semantics wraps; fallible code (Rust panics) is modelled with
Option or explicit error constructors.  PCM samples are modelled as rationals:
the claims settled here depend only on shapes, lengths, control flow and exact
integer arithmetic, never on floating-point rounding.

Code of the repository that is referenced but absent from the given sources
(the bitcvt bit utilities, the pattern search and linspace backend helpers, the
ASFH header parser, the Reed-Solomon block codec, the per-profile DCT kernels)
is modelled from the specification; every such definition carries a doc
comment starting with the words: Modelled from the spec.
-/

set_option linter.unusedVariables false
set_option linter.unnecessarySimpa false
set_option maxRecDepth 8192

namespace FrAD

/-! ## Generic list helpers (backend layer) -/

/-- Fuelled worker for `chunksOf`; the fuel is an upper bound on the number of
chunks still to cut and is irrelevant once it is at least the list length. -/
def chunksOfAux (n : Nat) : Nat → List α → List (List α)
  | _, [] => []
  | 0, _ :: _ => []
  | fuel + 1, x :: xs =>
    if n = 0 then []
    else (x :: xs).take n :: chunksOfAux n fuel ((x :: xs).drop n)

/-- Consecutive chunks of size `n` (the final chunk possibly shorter), as
produced by the Rust slice iterator `data.chunks(n)`; `n = 0` panics in Rust
and is mapped to the empty chunk list here (callers guard it). -/
def chunksOf (n : Nat) (l : List α) : List (List α) := chunksOfAux n l.length l

/-! ## common.rs: sync word and CRC layer -/

/-- Frame synchronisation word FF D0 D2 97 (`common::FRM_SIGN`). -/
def FRM_SIGN : List Nat := [0xff, 0xd0, 0xd2, 0x97]

/-- One entry of the CRC-32 table (`gcrc32t`): eight steps of the reflected
polynomial 0xEDB88320 starting from the byte index. -/
def crc32tEntry (i : Nat) : Nat :=
  (fun step => step (step (step (step (step (step (step (step i))))))))
    (fun crc => if crc % 2 = 1 then (crc / 2) ^^^ 0xedb88320 else crc / 2)

/-- CRC-32 (`common::crc32`): init 0xFFFFFFFF, bytewise table step, final XOR,
result emitted as four big-endian bytes. -/
def crc32 (data : List Nat) : List Nat :=
  let crc := data.foldl
    (fun crc byte => (crc / 256) ^^^ crc32tEntry ((crc % 256) ^^^ (byte % 256)))
    0xffffffff
  let v := crc ^^^ 0xffffffff
  [v / 2 ^ 24 % 256, v / 2 ^ 16 % 256, v / 2 ^ 8 % 256, v % 256]

/-- One entry of the CRC-16/ANSI table (`gcrc16t_ansi`): eight steps of the
reflected polynomial 0xA001 starting from the byte index. -/
def crc16tEntry (i : Nat) : Nat :=
  (fun step => step (step (step (step (step (step (step (step i))))))))
    (fun crc => if crc % 2 = 1 then (crc / 2) ^^^ 0xA001 else crc / 2)

/-- CRC-16/ANSI (`common::crc16_ansi`): init 0, bytewise table step, result
emitted as two big-endian bytes. -/
def crc16_ansi (data : List Nat) : List Nat :=
  let crc := data.foldl
    (fun crc byte => (crc / 256) ^^^ crc16tEntry ((crc ^^^ (byte % 256)) % 256))
    0
  [crc / 256 % 256, crc % 256]

/-! ## tools/ecc/mod.rs: the Reed-Solomon block layer

The Reed-Solomon block codec itself (reedsolo.rs) is not among the given
sources; `decode_rs` below is therefore parameterised by an abstract block
decoder `rsdec`, where `rsdec c = some r` models `rs.decode(chunk, None) = Ok`
returning the corrected information bytes `r`, and `rsdec c = none` models an
uncorrectable block error. -/

/-- The `decode_rs` chunk loop (`ecc::decode_rs`): cut the data into blocks of
`dlen + codelen` bytes, per block append the decoder result on success and
`dlen` zero bytes on error. -/
def decode_rs (rsdec : List Nat → Option (List Nat)) (data : List Nat)
    (dlen codelen : Nat) : List Nat :=
  let block_sz := dlen + codelen
  (chunksOf block_sz data).foldl
    (fun acc c =>
      acc ++ match rsdec c with
        | some r => r
        | none => List.replicate dlen 0)
    []

/-- The `unecc` chunk loop (`ecc::unecc`): cut the data into blocks of
`dlen + codelen` bytes and keep, from each block, its first
`block length - codelen` bytes.  (When the final ragged block is shorter than
`codelen` the Rust subtraction on usize overflows; the saturating Nat
subtraction used here agrees with the source on all other inputs.) -/
def unecc (data : List Nat) (dlen codelen : Nat) : List Nat :=
  let block_sz := dlen + codelen
  (chunksOf block_sz data).foldl
    (fun acc c => acc ++ c.take (c.length - codelen))
    []

/-- Bit depth table of profile 0 (`fourier::DEPTHS`). -/
def DEPTHS0 : List Nat := [12, 16, 24, 32, 48, 64]

/-- Dynamic range table of profile 0 (`fourier::FLOAT_DR`). -/
def FLOAT_DR : List Nat := [5, 5, 8, 8, 11, 11]

/-! ## backend bitcvt (Modelled from the spec: MSB-first bit conversions) -/

/-- Modelled from the spec: the eight bits of a byte, most significant
first. -/
def byteToBits (b : Nat) : List Bool :=
  (List.range 8).map (fun i => Nat.testBit b (7 - i))

/-- Modelled from the spec: `bitcvt::to_bits` — bytes to bits, MSB first
inside each octet. -/
def to_bits (bytes : List Nat) : List Bool := (bytes.map byteToBits).flatten

/-- A bit group of length at most eight read back as a byte, the group
MSB-first and zero-padded at the end. -/
def bitsToByte (c : List Bool) : Nat :=
  (c ++ List.replicate (8 - c.length) false).foldl
    (fun a b => 2 * a + cond b 1 0) 0

/-- Modelled from the spec: `bitcvt::to_bytes` — bits to bytes, MSB first,
the final partial octet zero-padded. -/
def to_bytes (bits : List Bool) : List Nat := (chunksOf 8 bits).map bitsToByte

/-! ## fourier/backend/u8pack.rs (decode side)

The scalar float decodings (IEEE half/single/double from byte groups) are
floating-point bit formats; `u8unpack` is parameterised by the three scalar
decoders, which the settled claims never consult. -/

/-- `u8pack::pad_float3s`: split the bitstream into `bits`-bit groups and pad
each with `bits / 3` zero bits. -/
def pad_float3s (bstr : List Bool) (bits : Nat) : List Bool :=
  ((chunksOf bits bstr).map
    (fun c => c ++ List.replicate (bits / 3) false)).flatten

/-- `u8pack::unpack`, parameterised by the scalar decoders: force big-endian
for non-octet depths, for depths divisible by three truncate the bitstream to
a multiple of `bits` and pad each group up to the next IEEE width, then decode
byte groups of 2, 4 or 8; a depth outside the table decodes to the empty
vector as in the source.  `none` models the panics (a ragged final byte group
under `try_into().unwrap()`, or the modulo by a zero depth). -/
def u8unpack (dec2 dec4 dec8 : List Nat → Bool → ℚ) (input : List Nat)
    (bits : Nat) (be : Bool) : Option (List ℚ) :=
  if bits = 0 then none
  else
    let be := if bits % 8 ≠ 0 then true else be
    let input := if bits % 3 = 0 then
        let bitstrm := to_bits input
        let bitstrm := bitstrm.take (bitstrm.length - bitstrm.length % bits)
        to_bytes (pad_float3s bitstrm bits)
      else input
    if bits = 12 ∨ bits = 16 then
      let cs := chunksOf 2 input
      if cs.all (fun c => c.length = 2) then some (cs.map (fun c => dec2 c be))
      else none
    else if bits = 24 ∨ bits = 32 then
      let cs := chunksOf 4 input
      if cs.all (fun c => c.length = 4) then some (cs.map (fun c => dec4 c be))
      else none
    else if bits = 48 ∨ bits = 64 then
      let cs := chunksOf 8 input
      if cs.all (fun c => c.length = 8) then some (cs.map (fun c => dec8 c be))
      else none
    else some []

/-- `fourier::digital` (profile 0 decode), parameterised by the scalar float
decoders and the inverse DCT kernel: unpack at `DEPTHS[bits]`, regroup the
flat coefficients into `samples = len / channels` rows of `channels`, index
the first row, transpose, inverse-DCT per channel and transpose back.  `none`
models the panics: depth index out of the table, division by a zero channel
count, and the `freqs_trans[0]` / `pcm_trans[0]` indexing of an empty
matrix. -/
def digital0 (dec2 dec4 dec8 : List Nat → Bool → ℚ) (idct : List ℚ → List ℚ)
    (frad : List Nat) (bits channels : Nat) (little_endian : Bool) :
    Option (List (List ℚ)) :=
  match DEPTHS0.get? bits with
  | none => none
  | some depth =>
    match u8unpack dec2 dec4 dec8 frad depth (!little_endian) with
    | none => none
    | some freqs_flat =>
      if channels = 0 then none
      else
        let samples := freqs_flat.length / channels
        let freqs_trans := (List.range samples).map
          (fun i => (freqs_flat.drop (i * channels)).take channels)
        match freqs_trans with
        | [] => none
        | ft0 :: _ =>
          let freqs := (List.range ft0.length).map
            (fun i => freqs_trans.map (fun inner => inner.getD i 0))
          let pcm_trans := freqs.map idct
          match pcm_trans with
          | [] => none
          | pt0 :: _ =>
            some ((List.range pt0.length).map
              (fun i => pcm_trans.map (fun inner => inner.getD i 0)))

/-! ## p1tools.rs: exponential Golomb-Rice codec

Arithmetic is on Int with explicit 64-bit two's-complement wrapping wherever
the Rust i64 release semantics wraps. -/

/-- 64-bit two's complement wrap of an integer. -/
def wrap64 (z : Int) : Int := (z + 2 ^ 63) % 2 ^ 64 - 2 ^ 63

/-- `i64::abs` under release semantics: the minimum wraps to itself. -/
def iabs64 (z : Int) : Int := if z = -(2 ^ 63) then z else |z|

/-- Value of a bit list read MSB-first. -/
def valFold (d : List Bool) : Nat := d.foldl (fun a b => 2 * a + cond b 1 0) 0

/-- The `w` low bits of `n`, MSB first. -/
def bitsW : Nat → Nat → List Bool
  | 0, _ => []
  | w + 1, n => Nat.testBit n w :: bitsW w n

/-- The 64 bits of the two's complement representation, MSB first
(`x.to_be_bytes()` followed by `to_bits`). -/
def toBits64 (z : Int) : List Bool := bitsW 64 (z % 2 ^ 64).toNat

/-- Fuelled ceiling base-2 logarithm; any fuel at least `n` is exact. -/
def clog2Aux : Nat → Nat → Nat
  | 0, _ => 0
  | f + 1, n => if n ≤ 1 then 0 else clog2Aux f ((n + 1) / 2) + 1

/-- Ceiling base-2 logarithm, the exact value of the Rust
`(dmax as f64).log2().ceil()` (exact for every power of two — in particular at
every counterexample input below — and for all magnitudes small enough for
f64 to represent exactly). -/
def ceilLog2 (n : Nat) : Nat := clog2Aux n n

/-- The parameter choice of `exp_golomb_encode`:
`k = ceil(log2 dmax)` when `dmax > 0`, else 0. -/
def egK (dmax : Int) : Nat := if 0 < dmax then ceilLog2 dmax.toNat else 0

/-- One codeword of `exp_golomb_encode`: map the signed value through
`x = (if n > 0 then (n << 1) - 1 else -n << 1) + (1 << k)` (every operation
wrapping), strip the leading zeros of the 64 two's-complement bits of `x`, and
prepend `code length - (k + 1)` zero bits.  (A wrapped `x` with fewer than
`k + 1` significant bits would underflow the Rust usize subtraction; the Nat
subtraction used here saturates instead, which no in-range input reaches.) -/
def egCodeword (k : Nat) (n : Int) : List Bool :=
  let x := wrap64
    ((if 0 < n then wrap64 (wrap64 (2 * n) - 1) else wrap64 (2 * wrap64 (-n)))
      + wrap64 (2 ^ k))
  let code := (toBits64 x).dropWhile (fun b => !b)
  List.replicate (code.length - (k + 1)) false ++ code

/-- The body of `exp_golomb_encode` for an already chosen `k`: the `k` header
byte followed by the packed concatenation of the codewords. -/
def egEncodeK (k : Nat) (data : List Int) : List Nat :=
  to_bytes (to_bits [k] ++ (data.map (egCodeword k)).flatten)

/-- `p1tools::exp_golomb_encode`: empty data encodes to the single byte 0;
otherwise `k` is the ceiling log of the largest absolute value. -/
def exp_golomb_encode (data : List Int) : List Nat :=
  if data = [] then [0]
  else egEncodeK (egK (((data.map iabs64).max?).getD 0)) data

/-- The scan loop of `exp_golomb_decode` over the bit vector, at absolute
index `idx`: find the distance `m` to the next set bit (the full length when
none is left, ending the scan), slice the codeword
`data[idx+m .. idx + min(2m+k+1, len)]` — `none` models the Rust slice panic
when the right end passes the length — and advance by `2m + k + 1`.  The fuel
only needs to exceed the number of codewords; the wrapper passes the bit
length plus one. -/
def egParseAux (k : Nat) (data : List Bool) : Nat → Nat → Option (List (List Bool))
  | 0, _ => none
  | fuel + 1, idx =>
    if idx < data.length then
      let m := (((data.drop idx).findIdx? (fun b => b)).getD data.length)
      if m = data.length then some []
      else
        let cwlen := 2 * m + k + 1
        let e := min cwlen data.length
        if data.length < idx + e then none
        else
          match egParseAux k data fuel (idx + cwlen) with
          | none => none
          | some rest => some ((data.drop (idx + m)).take (e - m) :: rest)
    else some []

/-- One codeword back to a signed value, as in the source: fold the bits into
an i64 (shift-or, wrapping), subtract `1 << k` (wrapping), then undo the
zigzag map: odd `n` gives `(n + 1) >> 1`, even gives `-(n >> 1)` (arithmetic
shifts, i.e. floor division). -/
def egCwToInt (k : Nat) (cw : List Bool) : Int :=
  let n := wrap64
    (cw.foldl (fun acc b => wrap64 (2 * acc) + cond b 1 0) 0 - wrap64 (2 ^ k))
  if n % 2 = 1 then Int.fdiv (wrap64 (n + 1)) 2 else wrap64 (-(Int.fdiv n 2))

/-- `p1tools::exp_golomb_decode`: the first byte is `k` (reading it panics on
empty input, and `1i64 << k` panics for `k ≥ 64`), the rest is scanned as a
bit vector and each codeword is mapped back to a signed value. -/
def exp_golomb_decode (data : List Nat) : Option (List Int) :=
  match data with
  | [] => none
  | k :: rest =>
    if 64 ≤ k then none
    else
      let bits := to_bits rest
      match egParseAux k bits (bits.length + 1) 0 with
      | none => none
      | some cws => some (cws.map (egCwToInt k))

/-- Proof-side form of the zigzag map of the encoder. -/
def zigzag (n : Int) : Int := if 0 < n then 2 * n - 1 else -(2 * n)

/-- Proof-side value of the biased codeword payload `x = zigzag n + 2^k`. -/
def egX (k : Nat) (n : Int) : Nat := (zigzag n + 2 ^ k).toNat

/-- Proof-side form of a codeword with its leading zeros stripped. -/
def cwCore (k : Nat) (n : Int) : List Bool :=
  bitsW (Nat.size (egX k n)) (egX k n)

/-! ## decode.rs data model

The ASFH header struct lives in tools/asfh.rs, which is not among the given
sources; the struct below carries exactly the fields decode.rs reads, and is
Modelled from the spec otherwise (created empty, populated by the parser,
cleared to the empty header preserving nothing). -/

/-- Modelled from the spec: the parsed frame header (ASFH) state as consumed
by decode.rs — profile, sample rate, channel count, bit depth index, payload
byte count, ECC flag and ratio, stored CRCs, overlap denominator, endianness,
the incremental header buffer and the all-set flag. -/
structure ASFH where
  all_set : Bool := false
  hbuf : List Nat := []
  profile : Nat := 0
  srate : Nat := 0
  channels : Nat := 0
  bit_depth : Nat := 0
  frmbytes : Nat := 0
  ecc : Bool := false
  ecc_dlen : Nat := 0
  ecc_clen : Nat := 0
  crc32v : List Nat := []
  crc16v : List Nat := []
  olap : Nat := 0
  endian : Bool := false
deriving Repr, DecidableEq

/-- Modelled from the spec: `ASFH::new` — the empty header. -/
def ASFH.new : ASFH := {}

/-- Modelled from the spec: `ASFH::criteq` — true iff profile, sample rate,
channel count and bit depth index all match. -/
def ASFH.criteq (a b : ASFH) : Bool :=
  a.profile == b.profile && a.srate == b.srate &&
  a.channels == b.channels && a.bit_depth == b.bit_depth

/-- Modelled from the spec: `ASFH::clear` resets to the empty header,
preserving nothing from the previous frame. -/
def ASFH.clear (_ : ASFH) : ASFH := ASFH.new

/-- Modelled from the spec: the COMPACT profile class (profile 1: sample-count
tables and CRC-16). -/
def COMPACT : List Nat := [1]

/-- Modelled from the spec: the LOSSLESS profile class (profiles 0 and 4:
CRC-32, bit-exact transforms). -/
def LOSSLESS : List Nat := [0, 4]

/-- Modelled from the spec: `linspace(a, b, n)` as in standard numerics —
`n` evenly spaced rationals from `a` to `b` inclusive. -/
def linspace (a b : ℚ) (n : Nat) : List ℚ :=
  (List.range n).map (fun i => a + (b - a) * (i : ℚ) / ((n : ℚ) - 1))

/-- Index-aware in-place map used to express the nested index assignments of
the Rust overlap loops. -/
def mapIdxFrom (f : Nat → α → α) : Nat → List α → List α
  | _, [] => []
  | i, x :: xs => f i x :: mapIdxFrom f (i + 1) xs

/-- In-bounds condition for the forward-linear overlap-add loops: the Rust
code indexes `frame[i][c]` and `overlap_fragment[i][c]` for every
`i < fragment length` and `c < channels`, and panics outside. -/
def crossfadeOk (channels : Nat) (frag frame : List (List ℚ)) : Bool :=
  decide (frag.length ≤ frame.length) &&
  (frame.take frag.length).all (fun r => channels ≤ r.length) &&
  frag.all (fun r => channels ≤ r.length)

/-- The forward-linear overlap-add of `Decode::overlap` step 1:
`frame[i][c] = frame[i][c] * fade_in[i] + overlap_fragment[i][c] * fade_out[i]`
for `i` below the fragment length and `c` below the channel count. -/
def crossfade (channels : Nat) (frag frame : List (List ℚ)) : List (List ℚ) :=
  let L := frag.length
  let fadeIn := linspace 0 1 L
  let fadeOut := linspace 1 0 L
  mapIdxFrom
    (fun i row =>
      if i < L then
        mapIdxFrom
          (fun c v =>
            if c < channels then
              v * fadeIn.getD i 0 + ((frag.getD i []).getD c 0) * fadeOut.getD i 0
            else v)
          0 row
      else row)
    0 frame

/-- `Decode::overlap`: apply the cross-fade against the stored fragment when
that fragment is non-empty, then, on a COMPACT profile with `olap ≠ 0` (olap
clamped to at least 2), split the frame at `len * (olap - 1) / olap`; the
prefix is emitted, the suffix becomes the new overlap fragment.  Returns
`none` when the Rust code would panic on out-of-bounds indexing. -/
def overlapStep (a : ASFH) (frag frame : List (List ℚ)) :
    Option (List (List ℚ) × List (List ℚ)) :=
  if frag ≠ [] ∧ crossfadeOk a.channels frag frame = false then none
  else
    let frame2 := if frag.isEmpty then frame else crossfade a.channels frag frame
    if COMPACT.contains a.profile ∧ a.olap ≠ 0 then
      let ol := max a.olap 2
      let cut := frame2.length * (ol - 1) / ol
      some (frame2.take cut, frame2.drop cut)
    else some (frame2, [])

/-! ## fourier/mod.rs: profile 0 encode side

The DCT kernel (backend/core_fast.rs) and the float packer state
(backend/u8pack.rs) involve floating-point bit formats; the claims settled
here concern the escalation loop and the returned depth index, so `analogue0`
is parameterised by the DCT and by the packer.  The coefficient arithmetic is
exact rational arithmetic; note that in f64 the thresholds for the two largest
depth indices, nominally 2^1024, overflow to infinity — the concrete inputs
used below stay in the regime where f64 and exact arithmetic agree. -/

/-- The escalation threshold `2^(2^(FLOAT_DR[bx]-1))` for an in-range index
(stated over Nat powers cast to the rationals so that kernel evaluation on the
huge exponents stays linear). -/
def escThr (bx : Nat) : ℚ :=
  ((2 ^ ((2 : Nat) ^ (FLOAT_DR.getD bx 0 - 1)) : Nat) : ℚ)

/-- Outcome of the depth escalation loop: a final index, the designated
overflow panic, or an out-of-range access to `FLOAT_DR`. -/
inductive Esc where
  | ok (bx : Nat)
  | overflowPanic
  | tableOOB
deriving Repr, DecidableEq

/-- Fuelled body of the escalation loop of `fourier::analogue`:
`while max > 2^(2^(FLOAT_DR[bx]-1)) { if bx == DEPTHS.len() { panic } bx += 1 }`.
Evaluating the loop condition reads `FLOAT_DR[bx]` and panics out of range
when `bx ≥ 6`; the guard inside the body compares against `DEPTHS.len() = 6`.
The fuel is unreachable from `escalate` (the index grows to at most 6). -/
def escalateFrom (m : ℚ) : Nat → Nat → Esc
  | fuel, bx =>
    if 6 ≤ bx then .tableOOB
    else if escThr bx < m then
      (if bx = 6 then .overflowPanic
       else match fuel with
            | 0 => .tableOOB
            | f + 1 => escalateFrom m f (bx + 1))
    else .ok bx

/-- The escalation loop started with fuel 7 (enough for every start index). -/
def escalate (m : ℚ) (bx : Nat) : Esc := escalateFrom m 7 bx

/-- Transposition by indexing as written in the Rust source:
`(0..w).map(|i| rows.iter().map(|inner| inner[i]).collect())`. -/
def transposeIdx (rows : List (List ℚ)) (w : Nat) : List (List ℚ) :=
  (List.range w).map (fun i => rows.map (fun r => r.getD i 0))

/-- Largest absolute value of a list (the Rust
`iter().max_by(|x,y| x.abs().partial_cmp(&y.abs()))` followed by `.abs()`);
`none` models the unwrap panic on an empty list. -/
def maxAbs (l : List ℚ) : Option ℚ := (l.map (fun x => |x|)).max?

/-- `fourier::analogue` (profile 0 encode), parameterised by the DCT kernel
and the float packer: transpose, DCT per channel, transpose back, flatten, run
the depth escalation loop — whose result is bound and then never used — and
pack at the ORIGINAL requested depth, returning the ORIGINAL depth index.
`none` models the panics (empty PCM, depth not in the table, empty coefficient
list, escalation panic). -/
def analogue0 (dct : List ℚ → List ℚ) (pack : List ℚ → Nat → Bool → List Nat)
    (pcm : List (List ℚ)) (bits : Nat) (little_endian : Bool) :
    Option (List Nat × Nat × Nat) :=
  match pcm with
  | [] => none
  | r0 :: rest =>
    if ¬ (r0 :: rest).all (fun r => r0.length ≤ r.length) then none
    else
      let pcm_trans := transposeIdx (r0 :: rest) r0.length
      let freqs := pcm_trans.map dct
      let channels := freqs.length
      match hf : freqs with
      | [] => none
      | f0 :: _ =>
        if ¬ freqs.all (fun r => f0.length ≤ r.length) then none
        else
          let freqs_trans := transposeIdx freqs f0.length
          let freqs_flat := freqs_trans.flatten
          match DEPTHS0.findIdx? (fun d => d == bits) with
          | none => none
          | some bx0 =>
            match maxAbs freqs_flat with
            | none => none
            | some m =>
              match escalate m bx0 with
              | .ok _ =>
                some (pack freqs_flat bits (!little_endian), bx0, channels)
              | _ => none

/-! ## decode.rs: the decode engine state machine

The engine is parameterised by the header parser `rb` (tools/asfh.rs is not
among the given sources), by the three per-profile digital kernels (their DCT
and float stages are floating point), and by the abstract Reed-Solomon block
decoder.  The machine itself — buffer handling, sync search, frame slicing,
ECC dispatch, overlap, reconfig and flush control flow — is translated from
`Decode::process` in decode.rs. -/

/-- Modelled from the spec: `find_pattern(haystack, needle)` — index of the
first full occurrence of the needle, or none. -/
def findPattern : List Nat → List Nat → Option Nat
  | h, p =>
    if h.take p.length = p then some 0
    else
      match h with
      | [] => none
      | _ :: t => (findPattern t p).map (· + 1)

/-- Result of one `read_buf` call: parse status (`none` models the Err
incomplete-header case, `some b` models Ok(b) with `b` the force-flush flag),
the updated header struct, the unconsumed buffer. -/
structure RbOut where
  res : Option Bool
  asfh : ASFH
  buf : List Nat
deriving Repr, DecidableEq

/-- The three per-profile digital kernels as abstract parameters
(profile 0 and 4 take the endian flag, profile 1 the sample rate). -/
structure Digs where
  d0 : List Nat → Nat → Nat → Bool → Option (List (List ℚ))
  d1 : List Nat → Nat → Nat → Nat → Option (List (List ℚ))
  d4 : List Nat → Nat → Nat → Bool → Option (List (List ℚ))

/-- Engine configuration: header parser, digital kernels, abstract RS block
decoder, and the user fix-error flag. -/
structure Cfg where
  rb : ASFH → List Nat → RbOut
  digs : Digs
  rsdec : List Nat → Option (List Nat)
  fixError : Bool

/-- Decoder state: current header parse, the info snapshot, the byte buffer
and the overlap fragment (`Decode` struct fields, log omitted). -/
structure DecState where
  asfh : ASFH
  info : ASFH
  buffer : List Nat
  overlap : List (List ℚ)
deriving Repr, DecidableEq

/-- `Decode::new`: empty header, empty info snapshot, empty buffers. -/
def DecState.new : DecState := ⟨ASFH.new, ASFH.new, [], []⟩

/-- Observable events of a run (model instrumentation): a header silently
adopted into the info snapshot, a critical-parameter reconfig return carrying
the previous sample rate, a forced flush. -/
inductive Ev where
  | adopt (h : ASFH)
  | reconfig (srate : Nat)
  | forceFlush
deriving Repr, DecidableEq

/-- Why a `process` call handed control back: ran out of data, forced flush,
or the critical-parameter flush-and-return (reconfig) path. -/
inductive ExitR where
  | needData
  | flushed
  | reconfigd (srate : Nat)
deriving Repr, DecidableEq

/-- Result of one iteration of the `process` loop. -/
inductive StepRes where
  | cont (st : DecState) (out : List (List ℚ)) (ev : List Ev)
  | brk (st : DecState) (out : List (List ℚ)) (ev : List Ev) (ex : ExitR)
  | fail
deriving Repr, DecidableEq

/-- Step 2.3 of `Decode::process`: call `read_buf` on the header state `a0`
with buffer `buf0` and triage the result — incomplete header breaks for more
data, a force-flush emits the overlap and breaks, a completed header is
compared against the info snapshot (equal: continue silently; changed with a
non-empty snapshot: flush and return reconfig; changed with an empty
snapshot: adopt silently). -/
def rbTriage (cfg : Cfg) (st : DecState) (a0 : ASFH) (buf0 : List Nat) :
    StepRes :=
  let r := cfg.rb a0 buf0
  match r.res with
  | none => .brk { st with asfh := r.asfh, buffer := r.buf } [] [] .needData
  | some true =>
    .brk ⟨ASFH.new, st.info, r.buf, []⟩ st.overlap [Ev.forceFlush] .flushed
  | some false =>
    if r.asfh.criteq st.info then
      .cont { st with asfh := r.asfh, buffer := r.buf } [] []
    else if st.info.srate ≠ 0 ∨ st.info.channels ≠ 0 then
      .brk ⟨ASFH.new, ASFH.new, r.buf, []⟩ st.overlap
        [Ev.reconfig st.info.srate] (.reconfigd st.info.srate)
    else
      .cont ⟨r.asfh, r.asfh, r.buf, st.overlap⟩ [] [Ev.adopt r.asfh]

/-- One iteration of the `Decode::process` loop, translated branch by branch:
frame decoding when `all_set` (insufficient data breaks; the payload is
detached, ECC-processed when enabled, dispatched on the profile, overlapped,
and the header cleared), otherwise acquisition (sync search with the
retain-last-4-bytes miss branch, then the `read_buf` triage `rbTriage`).
`fail` models a panic inside a digital kernel or the overlap indexing. -/
def stepOnce (cfg : Cfg) (st : DecState) : StepRes :=
  if st.asfh.all_set then
    if st.buffer.length < st.asfh.frmbytes then .brk st [] [] .needData
    else
      let frad := st.buffer.take st.asfh.frmbytes
      let buf2 := st.buffer.drop st.asfh.frmbytes
      let frad2 :=
        if st.asfh.ecc then
          if cfg.fixError &&
              (LOSSLESS.contains st.asfh.profile && (crc32 frad != st.asfh.crc32v)
                || COMPACT.contains st.asfh.profile && (crc16_ansi frad != st.asfh.crc16v))
          then decode_rs cfg.rsdec frad st.asfh.ecc_dlen st.asfh.ecc_clen
          else unecc frad st.asfh.ecc_dlen st.asfh.ecc_clen
        else frad
      let pcmOpt :=
        if st.asfh.profile = 1 then
          cfg.digs.d1 frad2 st.asfh.bit_depth st.asfh.channels st.asfh.srate
        else if st.asfh.profile = 4 then
          cfg.digs.d4 frad2 st.asfh.bit_depth st.asfh.channels st.asfh.endian
        else
          cfg.digs.d0 frad2 st.asfh.bit_depth st.asfh.channels st.asfh.endian
      match pcmOpt with
      | none => .fail
      | some pcm =>
        match overlapStep st.asfh st.overlap pcm with
        | none => .fail
        | some (emitted, frag2) =>
          .cont { st with asfh := st.asfh.clear, buffer := buf2, overlap := frag2 }
            emitted []
  else
    match (if FRM_SIGN.isPrefixOf st.asfh.hbuf then some (st.asfh, st.buffer)
      else
        match findPattern st.buffer FRM_SIGN with
        | some i =>
          some ({ st.asfh with hbuf := (st.buffer.drop i).take 4 },
                st.buffer.drop (i + 4))
        | none => none) with
    | none =>
      .brk { st with buffer := st.buffer.drop (st.buffer.length - 4) } [] [] .needData
    | some (a0, buf0) => rbTriage cfg st a0 buf0

/-- Result of a whole `process` call: accumulated PCM, events, final state
and exit reason, or a crash (panic). -/
inductive LoopOut where
  | ok (out : List (List ℚ)) (evs : List Ev) (st : DecState) (ex : ExitR)
  | crashed
deriving Repr, DecidableEq

/-- The fuelled `process` loop; `none` is fuel exhaustion (never a behaviour
of the code — every theorem quantifies over or discharges the fuel). -/
def loopRun (cfg : Cfg) : Nat → DecState → Option LoopOut
  | 0, _ => none
  | fuel + 1, st =>
    match stepOnce cfg st with
    | .fail => some .crashed
    | .brk st2 out ev ex => some (.ok out ev st2 ex)
    | .cont st2 out ev =>
      match loopRun cfg fuel st2 with
      | none => none
      | some .crashed => some .crashed
      | some (.ok out2 evs2 st3 ex) => some (.ok (out ++ out2) (ev ++ evs2) st3 ex)

/-- `process` first appends the input to the buffer. -/
def absorb (st : DecState) (inp : List Nat) : DecState :=
  { st with buffer := st.buffer ++ inp }

/-- The triple a `process` call returns: PCM, sample rate, reconfig flag
(the reconfig path returns the saved previous sample rate and true; every
other exit returns the current header sample rate and false). -/
def procReturn (r : LoopOut) : Option (List (List ℚ) × Nat × Bool) :=
  match r with
  | .crashed => none
  | .ok out _ st ex =>
    match ex with
    | .reconfigd s => some (out, s, true)
    | _ => some (out, st.asfh.srate, false)

/-- `Decode::flush`: emit the overlap fragment, clear it, clear the header. -/
def flushSt (st : DecState) : List (List ℚ) × DecState :=
  (st.overlap, ⟨ASFH.new, st.info, st.buffer, []⟩)

/-- Feeding a list of input chunks through consecutive `process` calls,
accumulating PCM, events and per-call exits. -/
def runChunks (cfg : Cfg) (fuel : Nat) :
    DecState → List (List Nat) →
      Option (List (List ℚ) × List Ev × DecState × List ExitR)
  | st, [] => some ([], [], st, [])
  | st, c :: cs =>
    match loopRun cfg fuel (absorb st c) with
    | some (.ok out evs st2 ex) =>
      match runChunks cfg fuel st2 cs with
      | some (out2, evs2, st3, exs) => some (out ++ out2, evs ++ evs2, st3, ex :: exs)
      | none => none
    | _ => none

/-! ### Abstract header-parser contract (Modelled from the spec:
read_buf consumes from the shared buffer, advancing only past bytes it has
committed to, and supports incremental completion) -/

/-- A completed (or force-flush) parse depends only on the bytes it consumes:
appending further input leaves the result intact and lands in the leftover. -/
def RbMono (rb : ASFH → List Nat → RbOut) : Prop :=
  ∀ a buf b, (rb a buf).res ≠ none →
    rb a (buf ++ b) = ⟨(rb a buf).res, (rb a buf).asfh, (rb a buf).buf ++ b⟩

/-- An incomplete parse resumes exactly where it stopped: parsing the
extension from the stashed state equals parsing the whole buffer at once. -/
def RbIncr (rb : ASFH → List Nat → RbOut) : Prop :=
  ∀ a buf b, (rb a buf).res = none →
    rb ((rb a buf).asfh) ((rb a buf).buf ++ b) = rb a (buf ++ b)

/-- An incomplete parse keeps the sync word at the front of its stash. -/
def RbStash (rb : ASFH → List Nat → RbOut) : Prop :=
  ∀ a buf, FRM_SIGN.isPrefixOf a.hbuf → (rb a buf).res = none →
    FRM_SIGN.isPrefixOf (rb a buf).asfh.hbuf

/-- An incomplete parse never marks the header complete. -/
def RbUnset (rb : ASFH → List Nat → RbOut) : Prop :=
  ∀ a buf, (rb a buf).res = none →
    (rb a buf).asfh.all_set = false

/-- Modelled from the spec: a concrete instantiation of the variable-length
header parser — the sync word followed by eight parameter bytes (profile,
sample rate, channels, bit depth index, payload bytes, overlap, ecc flag,
endian flag); a profile byte of 255 signals the force-flush container
boundary; fewer than twelve total bytes is an incomplete parse that stashes
everything consumed. -/
def toyRb (a : ASFH) (buf : List Nat) : RbOut :=
  if a.hbuf.length + buf.length < 12 then
    ⟨none, { a with hbuf := a.hbuf ++ buf, all_set := false }, []⟩
  else
    let need := 12 - a.hbuf.length
    let full := a.hbuf ++ buf.take need
    let rest := buf.drop need
    if full.getD 4 0 = 255 then ⟨some true, ASFH.new, rest⟩
    else
      ⟨some false,
       { all_set := true, hbuf := [],
         profile := full.getD 4 0, srate := full.getD 5 0,
         channels := full.getD 6 0, bit_depth := full.getD 7 0,
         frmbytes := full.getD 8 0, olap := full.getD 9 0,
         ecc := full.getD 10 0 != 0, ecc_dlen := 0, ecc_clen := 0,
         crc32v := [], crc16v := [], endian := full.getD 11 0 != 0 }, rest⟩

/-- Modelled from the spec: profile 4 digital — byte-level PCM passthrough,
the bytes grouped into rows of `channels` samples (zero channels panic on the
regrouping division). -/
def digital4 (frad : List Nat) (_bits channels : Nat) (_endian : Bool) :
    Option (List (List ℚ)) :=
  if channels = 0 then none
  else some ((chunksOf channels frad).map (fun c => c.map (fun x => (x : ℚ))))

/-- A trivial engine configuration for paths that never consult the parser or
the kernels. -/
def cfgTriv : Cfg :=
  ⟨fun a b => ⟨none, a, b⟩,
   ⟨fun _ _ _ _ => none, fun _ _ _ _ => none, fun _ _ _ _ => none⟩,
   fun _ => none, false⟩

/-- The toy-parser configuration with passthrough profile 4 used by the
concrete engine runs. -/
def cfgW : Cfg :=
  ⟨toyRb,
   ⟨fun _ _ _ _ => none, fun _ _ _ _ => none, digital4⟩,
   fun _ => none, false⟩

/-- A twelve-byte toy header: sync, profile 4, the given sample-rate byte,
mono, depth byte 8, two payload bytes, no overlap, no ECC, big endian. -/
def cxHdr (sr : Nat) : List Nat := FRM_SIGN ++ [4, sr, 1, 8, 2, 0, 0, 0]

/-- Whether the info snapshot is non-empty in the sense of the reconfig
guard of decode.rs (nonzero sample rate or nonzero channel count). -/
def infoNonzero (a : ASFH) : Bool := a.srate != 0 || a.channels != 0

/-- Every reconfig event in the trace is preceded by an adopt event, given
whether a header had already been adopted before the trace began. -/
def goodTrace : Bool → List Ev → Bool
  | _, [] => true
  | seen, e :: t =>
    match e with
    | .adopt _ => goodTrace true t
    | .reconfig _ => seen && goodTrace seen t
    | .forceFlush => goodTrace seen t

/-- Whether the trace contains an adopt event. -/
def adoptIn (evs : List Ev) : Bool :=
  evs.any (fun e => match e with | .adopt _ => true | _ => false)

/-! ### Loop-level composition -/

/-- Prefixing accumulated output and events onto a later call's result. -/
def prepOut (out : List (List ℚ)) (evs : List Ev) : LoopOut → LoopOut
  | .crashed => .crashed
  | .ok o e s x => .ok (out ++ o) (evs ++ e) s x

/-! ### Trace instrumentation: reconfig only after adopt -/

/-- Whether a header has been adopted after the trace, given whether one had
been adopted before it. -/
def seenAfter : Bool → List Ev → Bool
  | s, [] => s
  | s, e :: t => seenAfter (match e with | .adopt _ => true | _ => s) t

/-! ### Concrete exhibit material for the engine claims -/

/-- Profile 0 digital with concrete (zero) scalar decoders and the identity
inverse DCT: a witness instantiation of the abstract kernel parameters. -/
def d0W : List Nat → Nat → Nat → Bool → Option (List (List ℚ)) :=
  digital0 (fun _ _ => 0) (fun _ _ => 0) (fun _ _ => 0) id

/-- Engine configuration with the toy parser, the concrete profile 0 kernel
and the passthrough profile 4 kernel. -/
def cfg10 : Cfg :=
  ⟨toyRb, ⟨d0W, fun _ _ _ _ => none, digital4⟩, fun _ => none, false⟩

/-- A three-header stream: a 48-header with a two-byte frame, a 44-header
with a two-byte frame, and a second 44-header with a two-byte frame. -/
def sC4 : List Nat :=
  cxHdr 48 ++ [10, 20] ++ cxHdr 44 ++ [30, 40] ++ cxHdr 44 ++ [50, 60]

/-- A two-chunk partition of one header-plus-frame message, split inside the
twelve-byte header. -/
def chunks0 : List (List Nat) :=
  [(cxHdr 48).take 6, (cxHdr 48).drop 6 ++ [10, 20]]

/-- The parsed toy header of `cxHdr 48`. -/
def hdrW : ASFH :=
  { all_set := true, hbuf := [], profile := 4, srate := 48, channels := 1,
    bit_depth := 8, frmbytes := 2, ecc := false, ecc_dlen := 0, ecc_clen := 0,
    crc32v := [], crc16v := [], olap := 0, endian := false }

/-- The decoder state after consuming `chunks0`: header cleared after the
frame, `hdrW` adopted as the info snapshot, nothing buffered. -/
def stW : DecState := ⟨ASFH.new, hdrW, [], []⟩

/-- The PCM a caller obtains from one `process` result followed by the final
`flush` (which emits the overlap fragment). -/
def loopPcmFlush : LoopOut → List (List ℚ)
  | .crashed => []
  | .ok o _ s _ => o ++ (flushSt s).1

/-- Concrete abstract block decoder used to witness the RS block policy:
block [3, 4] is uncorrectable, every other block decodes to its first
byte. -/
def rsdecW : List Nat → Option (List Nat) :=
  fun c => if c = [3, 4] then none else some (c.take 1)

end FrAD

namespace FrAD

theorem chunksOfAux_fuel (n : Nat) (hn : n ≠ 0) :
    ∀ fuel (l : List α), l.length ≤ fuel → chunksOfAux n fuel l = chunksOf n l := by
  intro fuel
  induction fuel using Nat.strong_induction_on with
  | _ fuel ih =>
    intro l hl
    cases l with
    | nil => cases fuel <;> rfl
    | cons x xs =>
      cases fuel with
      | zero => simp at hl
      | succ f =>
        simp only [List.length_cons] at hl
        show chunksOfAux n (f + 1) (x :: xs) = chunksOfAux n (x :: xs).length (x :: xs)
        simp only [chunksOfAux, hn, if_false, List.length_cons]
        have hdl : ((x :: xs).drop n).length ≤ f := by
          simp only [List.length_drop, List.length_cons]; omega
        have hdl2 : ((x :: xs).drop n).length ≤ xs.length := by
          simp only [List.length_drop, List.length_cons]; omega
        rw [ih f (by omega) _ hdl, ih xs.length (by omega) _ hdl2]

theorem chunksOf_nil (n : Nat) : chunksOf n ([] : List α) = [] := rfl

theorem chunksOf_cons (n : Nat) (x : α) (xs : List α) (hn : n ≠ 0) :
    chunksOf n (x :: xs) = (x :: xs).take n :: chunksOf n ((x :: xs).drop n) := by
  show chunksOfAux n (xs.length + 1) (x :: xs) = _
  simp only [chunksOfAux, hn, if_false]
  congr 1
  exact chunksOfAux_fuel n hn xs.length _
    (by simp only [List.length_drop, List.length_cons]; omega)

theorem chunksOf_eq_of_ne_nil (n : Nat) (l : List α) (hn : n ≠ 0) (hl : l ≠ []) :
    chunksOf n l = l.take n :: chunksOf n (l.drop n) := by
  cases l with
  | nil => exact absurd rfl hl
  | cons x xs => exact chunksOf_cons n x xs hn

/-- The chunks of a list concatenate back to the list. -/
theorem chunksOf_flatten (n : Nat) (hn : n ≠ 0) (l : List α) :
    (chunksOf n l).flatten = l := by
  suffices H : ∀ N (l : List α), l.length ≤ N → (chunksOf n l).flatten = l from
    H l.length l le_rfl
  intro N
  induction N with
  | zero =>
    intro l hl
    rw [List.length_eq_zero.1 (Nat.le_zero.1 hl)]
    simp [chunksOf_nil]
  | succ N ih =>
    intro l hl
    cases l with
    | nil => simp [chunksOf_nil]
    | cons x xs =>
      rw [chunksOf_cons n x xs hn]
      simp only [List.flatten_cons]
      rw [ih ((x :: xs).drop n), List.take_append_drop]
      simp only [List.length_drop, List.length_cons] at *
      omega

/-- Every chunk has length at most `n`. -/
theorem chunksOf_length_le (n : Nat) (l : List α) :
    ∀ c ∈ chunksOf n l, c.length ≤ n := by
  suffices H : ∀ N (l : List α), l.length ≤ N → ∀ c ∈ chunksOf n l, c.length ≤ n from
    H l.length l le_rfl
  intro N
  induction N with
  | zero =>
    intro l hl
    rw [List.length_eq_zero.1 (Nat.le_zero.1 hl)]
    simp [chunksOf_nil]
  | succ N ih =>
    intro l hl
    cases l with
    | nil => simp [chunksOf_nil]
    | cons x xs =>
      rcases Nat.eq_zero_or_pos n with rfl | hn
      · show ∀ c ∈ chunksOfAux 0 (x :: xs).length (x :: xs), _
        simp [chunksOfAux]
      rw [chunksOf_cons n x xs (by omega)]
      intro c hc
      rcases List.mem_cons.1 hc with rfl | hc
      · simpa using List.length_take_le n (x :: xs)
      · refine ih ((x :: xs).drop n) ?_ c hc
        simp only [List.length_drop, List.length_cons] at *
        omega

/-- When `n` divides the length, every chunk has length exactly `n`. -/
theorem chunksOf_full (n : Nat) (hn : n ≠ 0) (l : List α) :
    n ∣ l.length → ∀ c ∈ chunksOf n l, c.length = n := by
  suffices H : ∀ N (l : List α), l.length ≤ N → n ∣ l.length →
      ∀ c ∈ chunksOf n l, c.length = n from H l.length l le_rfl
  intro N
  induction N with
  | zero =>
    intro l hl _
    rw [List.length_eq_zero.1 (Nat.le_zero.1 hl)]
    simp [chunksOf_nil]
  | succ N ih =>
    intro l hl hdvd
    cases l with
    | nil => simp [chunksOf_nil]
    | cons x xs =>
      intro c hc
      rw [chunksOf_cons n x xs hn] at hc
      have hlen : n ≤ (x :: xs).length := by
        rcases hdvd with ⟨k, hk⟩
        rcases Nat.eq_zero_or_pos k with rfl | hk0
        · simp at hk
        · calc n = n * 1 := by ring
            _ ≤ n * k := Nat.mul_le_mul_left n hk0
            _ = (x :: xs).length := hk.symm
      rcases List.mem_cons.1 hc with rfl | hc
      · simpa using Nat.min_eq_left hlen
      · refine ih ((x :: xs).drop n) ?_ ?_ c hc
        · simp only [List.length_drop, List.length_cons] at *
          omega
        · rcases hdvd with ⟨k, hk⟩
          refine ⟨k - 1, ?_⟩
          simp only [List.length_drop, hk]
          cases k with
          | zero => simp at hk
          | succ m =>
            simp only [Nat.succ_sub_one]
            calc n * (m + 1) - n = n * m + n - n := by ring_nf
              _ = n * m := by omega

theorem foldl_append_eq_flatten_map (f : β → List α) (l : List β) :
    ∀ init : List α,
      l.foldl (fun acc c => acc ++ f c) init = init ++ (l.map f).flatten := by
  induction l with
  | nil => simp
  | cons c cs ih =>
    intro init
    simp only [List.foldl_cons, List.map_cons, List.flatten_cons, ih,
      List.append_assoc]

/-- Profile 0 digital on an empty payload fails for every depth index,
channel count and endianness, whatever the scalar decoders and inverse DCT:
the flat coefficient list is empty, so either the channel division or the
`freqs_trans[0]` indexing panics. -/
theorem digital0_nil (dec2 dec4 dec8 : List Nat → Bool → ℚ)
    (idct : List ℚ → List ℚ) (bits channels : Nat) (le : Bool) :
    digital0 dec2 dec4 dec8 idct [] bits channels le = none := by
  unfold digital0
  rcases h : DEPTHS0.get? bits with _ | d
  · rfl
  · have hmem : d ∈ DEPTHS0 := List.get?_mem h
    have hu : ∀ be, u8unpack dec2 dec4 dec8 [] d be = some [] := by
      intro be
      fin_cases hmem <;> rfl
    dsimp only
    rw [hu]
    cases channels with
    | zero => rfl
    | succ n => simp [Nat.zero_div]

/-! ### Bit-vector lemmas for the Golomb codec -/

theorem foldl_bits_init (d : List Bool) :
    ∀ a : Nat, d.foldl (fun x b => 2 * x + cond b 1 0) a
      = a * 2 ^ d.length + valFold d := by
  induction d with
  | nil => intro a; simp [valFold]
  | cons b d' ih =>
    intro a
    have hv : valFold (b :: d') = (cond b 1 0) * 2 ^ d'.length + valFold d' := by
      show List.foldl _ ((fun x c => 2 * x + cond c 1 0) 0 b) d' = _
      rw [ih]
      simp
    simp only [List.foldl_cons, List.length_cons, hv]
    rw [ih]
    ring

theorem valFold_cons (b : Bool) (d : List Bool) :
    valFold (b :: d) = (cond b 1 0) * 2 ^ d.length + valFold d := by
  show List.foldl _ ((fun x c => 2 * x + cond c 1 0) 0 b) d = _
  rw [foldl_bits_init]
  simp

theorem valFold_lt (d : List Bool) : valFold d < 2 ^ d.length := by
  induction d with
  | nil => simp [valFold]
  | cons b d' ih =>
    rw [valFold_cons]
    simp only [List.length_cons, pow_succ]
    cases b <;> simp <;> omega

theorem bitsW_length (w n : Nat) : (bitsW w n).length = w := by
  induction w with
  | zero => rfl
  | succ w ih => simp [bitsW, ih]

theorem bitsW_succ (w n : Nat) :
    bitsW (w + 1) n = Nat.testBit n w :: bitsW w n := rfl

theorem bitsW_succ_lsb (w m : Nat) :
    bitsW (w + 1) m = bitsW w (m / 2) ++ [Nat.testBit m 0] := by
  induction w generalizing m with
  | zero => simp [bitsW]
  | succ w ih =>
    rw [bitsW_succ, ih, bitsW_succ]
    have h : Nat.testBit m (w + 1) = Nat.testBit (m / 2) w := Nat.testBit_succ m w
    rw [h]
    rfl

theorem bitsW_valFold (d : List Bool) : bitsW d.length (valFold d) = d := by
  induction d using List.reverseRecOn with
  | nil => simp [bitsW, valFold]
  | append_singleton d b ih =>
    have hval : valFold (d ++ [b]) = 2 * valFold d + cond b 1 0 := by
      unfold valFold
      rw [List.foldl_append]
      rfl
    have hlen : (d ++ [b]).length = d.length + 1 := by simp
    rw [hlen, hval, bitsW_succ_lsb]
    have hdiv : (2 * valFold d + cond b 1 0) / 2 = valFold d := by
      cases b <;> simp <;> omega
    have hbit : Nat.testBit (2 * valFold d + cond b 1 0) 0 = b := by
      simp only [Nat.testBit_to_div_mod, pow_zero, Nat.div_one]
      cases b <;> simp <;> omega
    rw [hdiv, hbit, ih]

theorem valFold_bitsW (w n : Nat) : valFold (bitsW w n) = n % 2 ^ w := by
  induction w generalizing n with
  | zero => simp [bitsW, valFold, Nat.mod_one]
  | succ w ih =>
    rw [bitsW_succ, valFold_cons, bitsW_length, ih]
    have h2 : 2 ^ (w + 1) = 2 ^ w * 2 := by ring
    rw [h2, Nat.mod_mul]
    have hbit : (cond (Nat.testBit n w) 1 0 : Nat) = n / 2 ^ w % 2 := by
      simp only [Nat.testBit_to_div_mod]
      rcases Nat.mod_two_eq_zero_or_one (n / 2 ^ w) with h | h <;> simp [h]
    rw [hbit]
    ring

theorem bitsW_of_size_le (n : Nat) :
    ∀ w, Nat.size n ≤ w →
      bitsW w n = List.replicate (w - Nat.size n) false ++ bitsW (Nat.size n) n := by
  intro w
  induction w with
  | zero => intro h; simp_all
  | succ w ih =>
    intro h
    rcases Nat.lt_or_ge (Nat.size n) (w + 1) with hlt | hge
    · have hle : Nat.size n ≤ w := by omega
      have hbit : Nat.testBit n w = false :=
        Nat.testBit_lt_two_pow (Nat.size_le.1 hle)
      rw [bitsW_succ, hbit, ih hle]
      have : w + 1 - Nat.size n = (w - Nat.size n) + 1 := by omega
      rw [this, List.replicate_succ]
      rfl
    · have : Nat.size n = w + 1 := by omega
      rw [this]
      simp

theorem bitsW_size_head (n : Nat) (hn : 0 < n) :
    bitsW (Nat.size n) n = true :: bitsW (Nat.size n - 1) n := by
  have hpos : 0 < Nat.size n := Nat.size_pos.2 hn
  obtain ⟨s, hs⟩ : ∃ s, Nat.size n = s + 1 := ⟨Nat.size n - 1, by omega⟩
  have hlow : (2 : Nat) ^ s ≤ n := Nat.lt_size.1 (by omega)
  have hhigh : n < 2 ^ (s + 1) := by rw [← hs]; exact Nat.lt_size_self n
  have hdiv : n / 2 ^ s = 1 := by
    have hp : (0 : Nat) < 2 ^ s := by positivity
    have h1 : 1 ≤ n / 2 ^ s := (Nat.le_div_iff_mul_le hp).2 (by omega)
    have h2 : n / 2 ^ s < 2 := by
      apply Nat.div_lt_of_lt_mul
      calc n < 2 ^ (s + 1) := hhigh
        _ = 2 ^ s * 2 := by rw [pow_succ]
    omega
  have hbit : Nat.testBit n s = true := by
    simp [Nat.testBit_to_div_mod, hdiv]
  rw [hs]
  rw [show s + 1 - 1 = s by omega]
  rw [bitsW_succ, hbit]

theorem dropWhile_not_replicate_false (m : Nat) (t : List Bool) :
    List.dropWhile (fun b => !b) (List.replicate m false ++ t)
      = List.dropWhile (fun b => !b) t := by
  induction m with
  | zero => rfl
  | succ m ih => simpa [List.replicate_succ] using ih

theorem findIdx?_replicate_false_true (m : Nat) (t : List Bool) :
    ∀ i, List.findIdx? (fun b => b) (List.replicate m false ++ true :: t) i
      = some (i + m) := by
  induction m with
  | zero => intro i; simp [List.findIdx?_cons]
  | succ m ih =>
    intro i
    rw [List.replicate_succ]
    simp only [List.cons_append, List.findIdx?_cons]
    rw [if_neg (by simp)]
    rw [ih (i + 1)]
    congr 1
    omega

theorem findIdx?_all_false (t : List Bool) (ht : ∀ b ∈ t, b = false) :
    ∀ i, List.findIdx? (fun b => b) t i = none := by
  induction t with
  | nil => intro i; rfl
  | cons b t ih =>
    intro i
    have hb : b = false := ht b (by simp)
    simp only [List.findIdx?_cons, hb]
    rw [if_neg (by simp)]
    exact ih (fun x hx => ht x (by simp [hx])) (i + 1)

theorem byteToBits_eq_bitsW (b : Nat) : byteToBits b = bitsW 8 b := rfl

theorem wrap64_eq_self (z : Int) (h1 : -(2 ^ 63) ≤ z) (h2 : z < 2 ^ 63) :
    wrap64 z = z := by
  unfold wrap64
  omega

theorem wrap64_ofNat (n : Nat) (h : n < 2 ^ 63) : wrap64 (n : Int) = n := by
  refine wrap64_eq_self _ (by omega) (by exact_mod_cast h)

/-- Decoding a byte back to bits recovers the bit group, zero-padding
included (core of the to_bytes / to_bits round trip). -/
theorem byteToBits_bitsToByte (c : List Bool) (hc : c.length ≤ 8) :
    byteToBits (bitsToByte c) = c ++ List.replicate (8 - c.length) false := by
  set d := c ++ List.replicate (8 - c.length) false with hd
  have hlen : d.length = 8 := by
    simp [hd]
    omega
  have hval : bitsToByte c = valFold d := rfl
  rw [byteToBits_eq_bitsW, hval, ← hlen, bitsW_valFold]

/-- The bits of packed bytes are the original bits followed by the zero
padding of the final partial octet. -/
theorem to_bits_to_bytes (L : List Bool) :
    to_bits (to_bytes L) = L ++ List.replicate ((8 - L.length % 8) % 8) false := by
  suffices H : ∀ N (L : List Bool), L.length ≤ N →
      to_bits (to_bytes L) = L ++ List.replicate ((8 - L.length % 8) % 8) false from
    H L.length L le_rfl
  intro N
  induction N with
  | zero =>
    intro L hL
    rw [List.length_eq_zero.1 (Nat.le_zero.1 hL)]
    rfl
  | succ N ih =>
    intro L hL
    cases hLnil : L with
    | nil => rfl
    | cons x xs =>
      rw [← hLnil]
      have hLne : L ≠ [] := by rw [hLnil]; simp
      unfold to_bytes
      rw [chunksOf_eq_of_ne_nil 8 L (by omega) hLne]
      simp only [List.map_cons]
      unfold to_bits
      simp only [List.map_cons, List.flatten_cons]
      have htake : (L.take 8).length = min 8 L.length := List.length_take 8 L
      rcases Nat.lt_or_ge L.length 8 with hlt | hge
      · have hdrop : L.drop 8 = [] := List.drop_eq_nil_of_le (by omega)
        have htk : L.take 8 = L := List.take_of_length_le (by omega)
        rw [hdrop, htk]
        show byteToBits (bitsToByte L) ++ to_bits (to_bytes []) = _
        rw [byteToBits_bitsToByte L (by omega)]
        have : to_bits (to_bytes []) = [] := rfl
        rw [this, List.append_nil]
        have hmod : L.length % 8 = L.length := Nat.mod_eq_of_lt hlt
        have hpos : 0 < L.length := by
          rw [hLnil]; simp
        have : (8 - L.length % 8) % 8 = 8 - L.length := by
          rw [hmod]
          exact Nat.mod_eq_of_lt (by omega)
        rw [this]
      · have htk8 : (L.take 8).length = 8 := by omega
        show byteToBits (bitsToByte (L.take 8)) ++ to_bits (to_bytes (L.drop 8)) = _
        rw [byteToBits_bitsToByte (L.take 8) (by omega), htk8]
        simp only [Nat.sub_self, List.replicate_zero, List.append_nil]
        rw [ih (L.drop 8) (by simp; omega)]
        rw [← List.append_assoc, List.take_append_drop]
        have : (L.drop 8).length % 8 = L.length % 8 := by
          simp only [List.length_drop]
          conv_rhs => rw [show L.length = (L.length - 8) + 8 by omega]
          rw [Nat.add_mod_right]
        rw [this]

/-- All padding bits are false. -/
theorem mem_replicate_false (p : Nat) :
    ∀ b ∈ List.replicate p false, b = false := by
  intro b hb
  exact List.eq_of_mem_replicate hb

/-- Splitting the first full chunk off a packed byte stream. -/
theorem chunksOf_append_left (n : Nat) (a b : List α)
    (ha : a.length = n) (hn : n ≠ 0) :
    chunksOf n (a ++ b) = a :: chunksOf n b := by
  have hane : a ++ b ≠ [] := by
    intro h
    rcases List.append_eq_nil.1 h with ⟨h1, _⟩
    rw [h1] at ha
    simp at ha
    omega
  rw [chunksOf_eq_of_ne_nil n (a ++ b) hn hane]
  rw [← ha, List.take_left, List.drop_left]

/-- The packed `k` header byte is recovered as the first byte. -/
theorem to_bytes_header (k : Nat) (hk : k < 256) (body : List Bool) :
    to_bytes (byteToBits k ++ body) = k :: to_bytes body := by
  unfold to_bytes
  rw [chunksOf_append_left 8 (byteToBits k) body (by rw [byteToBits_eq_bitsW, bitsW_length]) (by omega)]
  simp only [List.map_cons]
  congr 1
  have : bitsToByte (byteToBits k) = valFold (byteToBits k ++ List.replicate 0 false) := by
    rw [byteToBits_eq_bitsW]
    rfl
  rw [this]
  simp only [List.replicate_zero, List.append_nil, byteToBits_eq_bitsW]
  rw [valFold_bitsW]
  exact Nat.mod_eq_of_lt (by norm_num; omega)

theorem zigzag_bounds (n : Int) (hn : n.natAbs ≤ 2 ^ 61 - 1) :
    0 ≤ zigzag n ∧ zigzag n ≤ 2 ^ 62 - 2 := by
  unfold zigzag
  split <;> omega

theorem egX_bounds (k : Nat) (n : Int) (hk : k ≤ 62)
    (hn : n.natAbs ≤ 2 ^ 61 - 1) :
    2 ^ k ≤ egX k n ∧ egX k n < 2 ^ 63 ∧
      (egX k n : Int) = zigzag n + 2 ^ k := by
  have hz := zigzag_bounds n hn
  have hp1 : (1 : Int) ≤ 2 ^ k := one_le_pow₀ (by norm_num)
  have hp2 : (2 : Int) ^ k ≤ 2 ^ 62 := pow_le_pow_right₀ (by norm_num) hk
  have hcast : ((2 ^ k : Nat) : Int) = (2 : Int) ^ k := by push_cast; ring
  unfold egX
  omega

theorem size_egX (k : Nat) (n : Int) (hk : k ≤ 62)
    (hn : n.natAbs ≤ 2 ^ 61 - 1) :
    k + 1 ≤ Nat.size (egX k n) ∧ Nat.size (egX k n) ≤ 63 := by
  obtain ⟨h1, h2, _⟩ := egX_bounds k n hk hn
  exact ⟨Nat.lt_size.2 h1, Nat.size_le.2 (lt_of_lt_of_le h2 (by norm_num))⟩

theorem egCodeword_eq (k : Nat) (n : Int) (hk : k ≤ 62)
    (hn : n.natAbs ≤ 2 ^ 61 - 1) :
    egCodeword k n
      = List.replicate (Nat.size (egX k n) - (k + 1)) false ++ cwCore k n := by
  obtain ⟨hxlo, hxhi, hxval⟩ := egX_bounds k n hk hn
  obtain ⟨hs1, hs2⟩ := size_egX k n hk hn
  have hz := zigzag_bounds n hn
  have hp1 : (1 : Int) ≤ 2 ^ k := one_le_pow₀ (by norm_num)
  have hp2 : (2 : Int) ^ k ≤ 2 ^ 62 := pow_le_pow_right₀ (by norm_num) hk
  unfold egCodeword
  have hu : (if 0 < n then wrap64 (wrap64 (2 * n) - 1)
      else wrap64 (2 * wrap64 (-n))) = zigzag n := by
    unfold zigzag
    split
    · rw [wrap64_eq_self (2 * n) (by omega) (by omega),
        wrap64_eq_self (2 * n - 1) (by omega) (by omega)]
    · rw [wrap64_eq_self (-n) (by omega) (by omega),
        wrap64_eq_self (2 * -n) (by omega) (by omega)]
      ring
  rw [hu, wrap64_eq_self ((2 : Int) ^ k) (by omega) (by omega),
    wrap64_eq_self (zigzag n + 2 ^ k) (by omega) (by omega)]
  have hmod : ((zigzag n + 2 ^ k) % 2 ^ 64).toNat = egX k n := by
    rw [Int.emod_eq_of_lt (by omega) (by omega)]
    rfl
  unfold toBits64
  dsimp only
  rw [hmod]
  have hxpos : 0 < egX k n := by
    have : (0 : Nat) < 2 ^ k := by positivity
    omega
  rw [bitsW_of_size_le (egX k n) 64 (by omega)]
  rw [bitsW_size_head (egX k n) hxpos]
  rw [dropWhile_not_replicate_false, List.dropWhile_cons]
  rw [if_neg (by simp)]
  rw [← bitsW_size_head (egX k n) hxpos]
  show List.replicate ((cwCore k n).length - (k + 1)) false ++ cwCore k n = _
  have hlen : (cwCore k n).length = Nat.size (egX k n) := by
    unfold cwCore
    exact bitsW_length _ _
  rw [hlen]

/-- The wrapping shift-or fold of the decoder agrees with the exact bit value
whenever the final value fits in 63 bits. -/
theorem wrapFold_eq (d : List Bool) :
    ∀ a : Nat, a * 2 ^ d.length + valFold d < 2 ^ 63 →
      d.foldl (fun acc b => wrap64 (2 * acc) + cond b 1 0) (a : Int)
        = ((a * 2 ^ d.length + valFold d : Nat) : Int) := by
  induction d with
  | nil =>
    intro a h
    simp [valFold]
  | cons b d' ih =>
    intro a h
    have hv : valFold (b :: d') = cond b 1 0 * 2 ^ d'.length + valFold d' :=
      valFold_cons b d'
    have hlen : (b :: d').length = d'.length + 1 := rfl
    have hpow : (1 : Nat) ≤ 2 ^ d'.length := Nat.one_le_two_pow
    have h2a : (2 * a : Nat) < 2 ^ 63 := by
      have hle : 2 * a ≤ a * 2 ^ (d'.length + 1) := by
        calc 2 * a = a * 2 := by ring
          _ ≤ a * (2 ^ d'.length * 2) := by
              exact Nat.mul_le_mul_left a (by omega)
          _ = a * 2 ^ (d'.length + 1) := by ring
      rw [hlen] at h
      omega
    simp only [List.foldl_cons]
    have hstep : wrap64 (2 * (a : Int)) + cond b 1 0
        = ((2 * a + cond b 1 0 : Nat) : Int) := by
      rw [show (2 * (a : Int)) = ((2 * a : Nat) : Int) by push_cast; ring]
      rw [wrap64_ofNat _ h2a]
      cases b <;> simp
    rw [hstep]
    have hbnd : (2 * a + cond b 1 0) * 2 ^ d'.length + valFold d' < 2 ^ 63 := by
      rw [hv, hlen] at h
      have hexp : (2 * a + cond b 1 0) * 2 ^ d'.length + valFold d'
          = a * 2 ^ (d'.length + 1) + (cond b 1 0 * 2 ^ d'.length + valFold d') := by
        ring
      omega
    rw [ih (2 * a + cond b 1 0) hbnd]
    have hval : (2 * a + cond b 1 0) * 2 ^ d'.length + valFold d'
        = a * 2 ^ (b :: d').length + valFold (b :: d') := by
      rw [hv, hlen]
      cases b <;> simp <;> ring
    rw [hval]

/-- Decoding a codeword core recovers the encoded value. -/
theorem egCwToInt_cwCore (k : Nat) (n : Int) (hk : k ≤ 62)
    (hn : n.natAbs ≤ 2 ^ 61 - 1) :
    egCwToInt k (cwCore k n) = n := by
  obtain ⟨hxlo, hxhi, hxval⟩ := egX_bounds k n hk hn
  have hz := zigzag_bounds n hn
  have hp1 : (1 : Int) ≤ 2 ^ k := one_le_pow₀ (by norm_num)
  have hp2 : (2 : Int) ^ k ≤ 2 ^ 62 := pow_le_pow_right₀ (by norm_num) hk
  have hvf : valFold (cwCore k n) = egX k n := by
    unfold cwCore
    rw [valFold_bitsW]
    exact Nat.mod_eq_of_lt (Nat.lt_size_self _)
  have hfold : (cwCore k n).foldl (fun acc b => wrap64 (2 * acc) + cond b 1 0) 0
      = ((egX k n : Nat) : Int) := by
    have hw := wrapFold_eq (cwCore k n) 0 (by rw [hvf]; omega)
    rw [Nat.cast_zero] at hw
    rw [hw, hvf]
    norm_num
  unfold egCwToInt
  rw [hfold, wrap64_eq_self ((2 : Int) ^ k) (by omega) (by omega)]
  have hsub : wrap64 ((egX k n : Int) - 2 ^ k) = zigzag n := by
    rw [wrap64_eq_self _ (by omega) (by omega)]
    omega
  rw [hsub]
  unfold zigzag
  split
  · rename_i hpos
    rw [if_pos (by omega)]
    rw [wrap64_eq_self (2 * n - 1 + 1) (by omega) (by omega)]
    rw [show (2 * n - 1 + 1) = 2 * n by ring]
    exact Int.mul_fdiv_cancel_left n (by norm_num)
  · rename_i hneg
    rw [if_neg (by omega)]
    rw [show -(2 * n) = 2 * (-n) by ring]
    rw [Int.mul_fdiv_cancel_left (-n) (by norm_num)]
    rw [show (-(-n)) = n by ring]
    exact wrap64_eq_self n (by omega) (by omega)

theorem drop_replicate_append (m : Nat) (x : α) (l : List α) :
    (List.replicate m x ++ l).drop m = l := by
  induction m with
  | zero => simp
  | succ m ih => simpa [List.replicate_succ] using ih

/-- The decoder scan splits a concatenation of codewords followed by
all-false padding back into the codeword cores. -/
theorem egParseAux_spec (k : Nat) (hk : k ≤ 62) :
    ∀ (ns : List Int) (data pad : List Bool) (idx fuel : Nat),
      (∀ n ∈ ns, n.natAbs ≤ 2 ^ 61 - 1) →
      (∀ b ∈ pad, b = false) →
      data.drop idx = (ns.map (egCodeword k)).flatten ++ pad →
      data.length - idx < fuel →
      egParseAux k data fuel idx = some (ns.map (cwCore k)) := by
  intro ns
  induction ns with
  | nil =>
    intro data pad idx fuel hb hpad hdrop hfuel
    cases fuel with
    | zero => omega
    | succ f =>
      unfold egParseAux
      by_cases hidx : idx < data.length
      · rw [if_pos hidx]
        simp only [List.map_nil, List.flatten_nil, List.nil_append] at hdrop
        rw [hdrop]
        rw [findIdx?_all_false pad hpad 0]
        simp
      · rw [if_neg hidx]
        simp
  | cons n ns ih =>
    intro data pad idx fuel hb hpad hdrop hfuel
    have hbn : n.natAbs ≤ 2 ^ 61 - 1 := hb n (by simp)
    obtain ⟨hxlo, hxhi, _⟩ := egX_bounds k n hk hbn
    obtain ⟨hs1, hs2⟩ := size_egX k n hk hbn
    have hxpos : 0 < egX k n := by
      have : (0 : Nat) < 2 ^ k := by positivity
      omega
    have hcw : egCodeword k n
        = List.replicate (Nat.size (egX k n) - (k + 1)) false ++ cwCore k n :=
      egCodeword_eq k n hk hbn
    have hcore : cwCore k n = true :: bitsW (Nat.size (egX k n) - 1) (egX k n) :=
      bitsW_size_head (egX k n) hxpos
    have hclen : (cwCore k n).length = Nat.size (egX k n) := bitsW_length _ _
    set sz := Nat.size (egX k n) with hszdef
    set m := sz - (k + 1) with hmdef
    have hsz : sz = m + (k + 1) := by omega
    -- rest of the stream after this codeword
    set rest := (ns.map (egCodeword k)).flatten ++ pad with hrest
    have hdrop2 : data.drop idx
        = List.replicate m false ++ (cwCore k n ++ rest) := by
      rw [hdrop]
      simp only [List.map_cons, List.flatten_cons, hcw]
      simp [List.append_assoc]
    have hdlen : data.length - idx = m + sz + rest.length := by
      have := congrArg List.length hdrop2
      simp only [List.length_drop, List.length_append, List.length_replicate,
        hclen] at this
      omega
    have hidx : idx < data.length := by
      have hszpos : 0 < sz := by omega
      omega
    cases fuel with
    | zero => omega
    | succ f =>
      unfold egParseAux
      rw [if_pos hidx]
      have hfind : List.findIdx? (fun b => b) (data.drop idx) 0 = some m := by
        rw [hdrop2, hcore]
        simpa using findIdx?_replicate_false_true m _ 0
      rw [hfind]
      simp only [Option.getD_some]
      rw [if_neg (by omega)]
      have hcwlen : 2 * m + k + 1 = m + sz := by omega
      have hele : min (2 * m + k + 1) data.length = 2 * m + k + 1 := by
        refine Nat.min_eq_left ?_
        omega
      rw [hele]
      rw [if_neg (by omega)]
      have hdropm : data.drop (idx + m) = cwCore k n ++ rest := by
        rw [← List.drop_drop m idx data, hdrop2, drop_replicate_append]
      have hslice : (data.drop (idx + m)).take (2 * m + k + 1 - m) = cwCore k n := by
        rw [hdropm]
        rw [show 2 * m + k + 1 - m = (cwCore k n).length by rw [hclen]; omega]
        rw [List.take_left]
      have hrec : egParseAux k data f (idx + (2 * m + k + 1))
          = some (ns.map (cwCore k)) := by
        refine ih data pad (idx + (2 * m + k + 1)) f
          (fun x hx => hb x (by simp [hx])) hpad ?_ ?_
        · rw [← List.drop_drop (2 * m + k + 1) idx data, hdrop2]
          rw [show 2 * m + k + 1 = m + sz by omega]
          rw [← List.drop_drop sz m _, drop_replicate_append]
          rw [← hclen, List.drop_left]
        · omega
      rw [hrec]
      rw [hslice]
      simp

/-- Decoding inverts the fixed-parameter encoder on every value sequence
within the 61-bit magnitude bound. -/
theorem eg_roundtripK (k : Nat) (ns : List Int) (hk : k ≤ 62)
    (hb : ∀ n ∈ ns, n.natAbs ≤ 2 ^ 61 - 1) :
    exp_golomb_decode (egEncodeK k ns) = some ns := by
  unfold egEncodeK exp_golomb_decode
  have h1 : to_bits [k] = byteToBits k := by
    simp [to_bits]
  rw [h1, to_bytes_header k (by omega) _]
  dsimp only
  rw [if_neg (by omega)]
  rw [to_bits_to_bytes]
  set body := (ns.map (egCodeword k)).flatten with hbody
  set p := (8 - body.length % 8) % 8 with hp
  have hparse := egParseAux_spec k hk ns (body ++ List.replicate p false)
    (List.replicate p false) 0 ((body ++ List.replicate p false).length + 1)
    hb (mem_replicate_false p) (by simp) (by omega)
  rw [hparse]
  dsimp only
  congr 1
  rw [List.map_map]
  calc List.map (egCwToInt k ∘ cwCore k) ns
      = List.map id ns :=
        List.map_congr_left (fun n hn => egCwToInt_cwCore k n hk (hb n hn))
    _ = ns := List.map_id ns

theorem clog2Aux_le : ∀ (fuel n j : Nat), n ≤ 2 ^ j → clog2Aux fuel n ≤ j := by
  intro fuel
  induction fuel with
  | zero =>
    intro n j h
    simp [clog2Aux]
  | succ f ih =>
    intro n j h
    unfold clog2Aux
    split
    · omega
    · rename_i hn
      cases j with
      | zero => simp at h; omega
      | succ j' =>
        have hpow : (2 : Nat) ^ (j' + 1) = 2 * 2 ^ j' := by rw [pow_succ]; ring
        have hhalf : (n + 1) / 2 ≤ 2 ^ j' := by omega
        have := ih ((n + 1) / 2) j' hhalf
        omega

theorem ceilLog2_le (n j : Nat) (h : n ≤ 2 ^ j) : ceilLog2 n ≤ j :=
  clog2Aux_le n n j h

theorem mapIdxFrom_length (f : Nat → α → α) :
    ∀ (i : Nat) (l : List α), (mapIdxFrom f i l).length = l.length := by
  intro i l
  induction l generalizing i with
  | nil => rfl
  | cons x xs ih => simp [mapIdxFrom, ih]

theorem crossfade_length (channels : Nat) (frag frame : List (List ℚ)) :
    (crossfade channels frag frame).length = frame.length := by
  unfold crossfade
  exact mapIdxFrom_length _ 0 frame

/-! ### Sync-search lemmas -/

theorem findPattern_spec :
    ∀ (h p : List Nat) (i : Nat), findPattern h p = some i →
      (h.drop i).take p.length = p := by
  intro h
  induction h with
  | nil =>
    intro p i hfp
    unfold findPattern at hfp
    split at hfp
    · rename_i hc
      injection hfp with hi
      subst hi
      simpa using hc
    · simp at hfp
  | cons x t ih =>
    intro p i hfp
    unfold findPattern at hfp
    split at hfp
    · rename_i hc
      injection hfp with hi
      subst hi
      simpa using hc
    · rcases Option.map_eq_some'.1 hfp with ⟨j, hj, rfl⟩
      simpa using ih p j hj

theorem findPattern_le_len :
    ∀ (h p : List Nat) (i : Nat), findPattern h p = some i → i ≤ h.length := by
  intro h
  induction h with
  | nil =>
    intro p i hfp
    unfold findPattern at hfp
    split at hfp
    · injection hfp with hi
      omega
    · simp at hfp
  | cons x t ih =>
    intro p i hfp
    unfold findPattern at hfp
    split at hfp
    · injection hfp with hi
      omega
    · rcases Option.map_eq_some'.1 hfp with ⟨j, hj, rfl⟩
      have := ih p j hj
      simp only [List.length_cons]
      omega

theorem findPattern_le :
    ∀ (h p : List Nat) (i : Nat), findPattern h p = some i →
      i + p.length ≤ h.length := by
  intro h p i hfp
  have hs := findPattern_spec h p i hfp
  have hlen := findPattern_le_len h p i hfp
  have := congrArg List.length hs
  simp only [List.length_take, List.length_drop] at this
  omega

theorem findPattern_append_some :
    ∀ (h p b : List Nat) (i : Nat), findPattern h p = some i →
      findPattern (h ++ b) p = some i := by
  intro h
  induction h with
  | nil =>
    intro p b i hfp
    unfold findPattern at hfp
    split at hfp
    · rename_i hc
      injection hfp with hi
      subst hi
      have hp : p = [] := by simpa using hc.symm
      subst hp
      unfold findPattern
      simp
    · simp at hfp
  | cons x t ih =>
    intro p b i hfp
    have hle := findPattern_le (x :: t) p i hfp
    unfold findPattern at hfp
    split at hfp
    · rename_i hc
      injection hfp with hi
      subst hi
      unfold findPattern
      rw [if_pos]
      rw [List.take_append_of_le_length (by
        have hlenc := congrArg List.length hc
        simp only [List.length_take] at hlenc
        rcases Nat.le_total p.length (x :: t).length with hh | hh
        · exact hh
        · rw [Nat.min_eq_right hh] at hlenc
          omega)]
      exact hc
    · rename_i hc
      rcases Option.map_eq_some'.1 hfp with ⟨j, hj, rfl⟩
      have hlep : p.length ≤ (x :: t).length := by
        have := findPattern_le t p j hj
        simp only [List.length_cons]
        omega
      unfold findPattern
      rw [if_neg (by
        rw [List.take_append_of_le_length hlep]
        exact hc)]
      show (findPattern (t ++ b) p).map (· + 1) = some (j + 1)
      rw [ih p b j hj]
      rfl

theorem findPattern_cons_neg (x : Nat) (t p : List Nat)
    (hc : ¬((x :: t).take p.length = p)) :
    findPattern (x :: t) p = (findPattern t p).map (· + 1) := by
  conv_lhs => unfold findPattern
  rw [if_neg hc]

theorem findPattern_none_head (x : Nat) (t p : List Nat)
    (hn : findPattern (x :: t) p = none) :
    ¬((x :: t).take p.length = p) ∧ findPattern t p = none := by
  unfold findPattern at hn
  split at hn
  · simp at hn
  · rename_i hc
    refine ⟨hc, ?_⟩
    dsimp only at hn
    rcases ho : findPattern t p with _ | j
    · rfl
    · rw [ho] at hn
      simp at hn

theorem findPattern_none_append (p : List Nat) :
    ∀ (h b : List Nat), findPattern h p = none →
      findPattern (h ++ b) p
        = (findPattern (h.drop (h.length - p.length) ++ b) p).map
            (· + (h.length - p.length)) := by
  intro h
  induction h with
  | nil =>
    intro b hn
    simp only [List.nil_append, List.length_nil, Nat.zero_sub, List.drop_nil,
      List.nil_append]
    cases findPattern b p <;> simp
  | cons x t ih =>
    intro b hn
    obtain ⟨hc, hnt⟩ := findPattern_none_head x t p hn
    rcases le_or_lt (x :: t).length p.length with hshort | hlong
    · rw [Nat.sub_eq_zero_of_le hshort]
      simp only [List.drop_zero]
      cases findPattern ((x :: t) ++ b) p <;> simp
    · have hcb : ¬(((x :: t) ++ b).take p.length = p) := by
        rw [List.take_append_of_le_length (by omega)]
        exact hc
      have hstep : findPattern ((x :: t) ++ b) p
          = (findPattern (t ++ b) p).map (· + 1) := by
        rw [List.cons_append]
        exact findPattern_cons_neg x (t ++ b) p (by rw [← List.cons_append]; exact hcb)
      rw [hstep, ih b hnt]
      simp only [List.length_cons] at hlong
      have harith : (x :: t).length - p.length = (t.length - p.length) + 1 := by
        simp only [List.length_cons]
        omega
      have hdrop : (x :: t).drop ((x :: t).length - p.length)
          = t.drop (t.length - p.length) := by
        rw [harith]
        rfl
      rw [hdrop]
      rw [harith]
      cases findPattern (t.drop (t.length - p.length) ++ b) p with
      | none => simp
      | some r =>
        simp only [Option.map_some', Option.some.injEq, List.length_cons]
        omega

theorem isPrefixOf_self (l : List Nat) : l.isPrefixOf l = true := by
  induction l with
  | nil => rfl
  | cons x xs ih => simp [List.isPrefixOf, ih]

theorem isPrefixOf_append_right (l x y : List Nat)
    (h : l.isPrefixOf x = true) : l.isPrefixOf (x ++ y) = true := by
  induction l generalizing x with
  | nil => simp [List.isPrefixOf]
  | cons c cs ih =>
    cases x with
    | nil => simp [List.isPrefixOf] at h
    | cons d ds =>
      simp only [List.isPrefixOf, List.cons_append, Bool.and_eq_true] at h ⊢
      exact ⟨h.1, ih ds h.2⟩

theorem toyRb_mono : RbMono toyRb := by
  intro a buf b hres
  unfold toyRb at hres ⊢
  by_cases hlen : a.hbuf.length + buf.length < 12
  · rw [if_pos hlen] at hres
    simp at hres
  · rw [if_neg hlen]
    have hlen2 : ¬(a.hbuf.length + (buf ++ b).length < 12) := by
      simp only [List.length_append]
      omega
    rw [if_neg hlen2]
    rw [if_neg hlen] at hres
    dsimp only at hres ⊢
    have hneed : 12 - a.hbuf.length ≤ buf.length := by omega
    rw [List.take_append_of_le_length hneed, List.drop_append_of_le_length hneed]
    split <;> rfl

theorem toyRb_incr : RbIncr toyRb := by
  intro a buf b hres
  unfold toyRb at hres ⊢
  by_cases hlen : a.hbuf.length + buf.length < 12
  · rw [if_pos hlen] at hres ⊢
    simp only [List.nil_append]
    by_cases hlen2 : (a.hbuf ++ buf).length + b.length < 12
    · rw [if_pos hlen2]
      have hlen3 : a.hbuf.length + (buf ++ b).length < 12 := by
        simp only [List.length_append] at hlen2 ⊢
        omega
      rw [if_pos hlen3]
      simp [List.append_assoc]
    · rw [if_neg hlen2]
      have hlen3 : ¬(a.hbuf.length + (buf ++ b).length < 12) := by
        simp only [List.length_append] at hlen2 ⊢
        omega
      rw [if_neg hlen3]
      have hbuflen : buf.length ≤ 12 - a.hbuf.length := by omega
      have htk : (buf ++ b).take (12 - a.hbuf.length)
          = buf ++ b.take (12 - a.hbuf.length - buf.length) := by
        rw [List.take_append_eq_append_take]
        rw [List.take_of_length_le hbuflen]
      have hdr : (buf ++ b).drop (12 - a.hbuf.length)
          = b.drop (12 - a.hbuf.length - buf.length) := by
        rw [List.drop_append_eq_append_drop]
        rw [List.drop_eq_nil_of_le hbuflen, List.nil_append]
      have hfull : a.hbuf ++ buf ++ b.take (12 - (a.hbuf ++ buf).length)
          = a.hbuf ++ (buf ++ b).take (12 - a.hbuf.length) := by
        rw [htk, List.append_assoc]
        congr 3
        simp only [List.length_append]
        omega
      have hrest : b.drop (12 - (a.hbuf ++ buf).length)
          = (buf ++ b).drop (12 - a.hbuf.length) := by
        rw [hdr]
        congr 1
        simp only [List.length_append]
        omega
      rw [hfull, hrest]
  · rw [if_neg hlen] at hres
    dsimp only at hres
    split at hres <;> simp at hres

theorem toyRb_stash : RbStash toyRb := by
  intro a buf hpre hres
  unfold toyRb at hres ⊢
  by_cases hlen : a.hbuf.length + buf.length < 12
  · rw [if_pos hlen]
    exact isPrefixOf_append_right _ _ _ hpre
  · rw [if_neg hlen] at hres
    dsimp only at hres
    split at hres <;> simp at hres

theorem toyRb_unset : RbUnset toyRb := by
  intro a buf hres
  unfold toyRb at hres ⊢
  by_cases hlen : a.hbuf.length + buf.length < 12
  · rw [if_pos hlen]
  · rw [if_neg hlen] at hres
    dsimp only at hres
    split at hres <;> simp at hres

/-- Trimming to the last four bytes commutes with later input: the miss
branch of the sync search converges to the same buffer whether the trim
happened before or after the new bytes arrived. -/
theorem trim_append (h b : List Nat) :
    (h ++ b).drop ((h ++ b).length - 4)
      = ((h.drop (h.length - 4)) ++ b).drop
          (((h.drop (h.length - 4)) ++ b).length - 4) := by
  rcases le_or_lt h.length 4 with hle | hgt
  · rw [Nat.sub_eq_zero_of_le hle, List.drop_zero]
  · have hc : h.length - 4 ≤ h.length := by omega
    have h1 : h.drop (h.length - 4) ++ b = (h ++ b).drop (h.length - 4) := by
      rw [List.drop_append_of_le_length hc]
    rw [h1, List.drop_drop]
    congr 1
    simp only [List.length_drop, List.length_append]
    omega

/-! ### Step-level normal forms and buffer-extension stability -/

theorem absorb_mk (st : DecState) (b : List Nat) :
    absorb st b = ⟨st.asfh, st.info, st.buffer ++ b, st.overlap⟩ := rfl

theorem absorb_absorb (st : DecState) (c d : List Nat) :
    absorb (absorb st c) d = absorb st (c ++ d) := by
  simp [absorb, List.append_assoc]

theorem rbTriage_congr (cfg : Cfg) (st1 st2 : DecState) (a0 : ASFH)
    (buf0 : List Nat) (hinfo : st1.info = st2.info)
    (hov : st1.overlap = st2.overlap) :
    rbTriage cfg st1 a0 buf0 = rbTriage cfg st2 a0 buf0 := by
  unfold rbTriage
  dsimp only
  rw [hinfo, hov]

theorem rbTriage_rb_eq (cfg : Cfg) (st : DecState) (a1 a2 : ASFH)
    (b1 b2 : List Nat) (hrb : cfg.rb a1 b1 = cfg.rb a2 b2) :
    rbTriage cfg st a1 b1 = rbTriage cfg st a2 b2 := by
  unfold rbTriage
  dsimp only
  rw [hrb]

/-- Frame branch, insufficient data: break with the state unchanged. -/
theorem stepOnce_frame_wait (cfg : Cfg) (st : DecState)
    (hset : st.asfh.all_set = true)
    (hlen : st.buffer.length < st.asfh.frmbytes) :
    stepOnce cfg st = .brk st [] [] .needData := by
  unfold stepOnce
  rw [if_pos hset, if_pos hlen]

/-- Acquisition branch, header buffer already carrying the sync word. -/
theorem stepOnce_acq_pre (cfg : Cfg) (st : DecState)
    (hset : st.asfh.all_set = false)
    (hpre : FRM_SIGN.isPrefixOf st.asfh.hbuf = true) :
    stepOnce cfg st = rbTriage cfg st st.asfh st.buffer := by
  unfold stepOnce
  rw [if_neg (show ¬(st.asfh.all_set = true) by rw [hset]; simp),
    if_pos hpre]

/-- Acquisition branch, sync word found in the main buffer at offset `i`. -/
theorem stepOnce_acq_found (cfg : Cfg) (st : DecState) (i : Nat)
    (hset : st.asfh.all_set = false)
    (hpre : FRM_SIGN.isPrefixOf st.asfh.hbuf = false)
    (hfp : findPattern st.buffer FRM_SIGN = some i) :
    stepOnce cfg st
      = rbTriage cfg st { st.asfh with hbuf := (st.buffer.drop i).take 4 }
          (st.buffer.drop (i + 4)) := by
  unfold stepOnce
  rw [if_neg (show ¬(st.asfh.all_set = true) by rw [hset]; simp),
    if_neg (show ¬(FRM_SIGN.isPrefixOf st.asfh.hbuf = true) by rw [hpre]; simp),
    hfp]

/-- Acquisition branch, sync word absent: trim to the last four bytes. -/
theorem stepOnce_acq_miss (cfg : Cfg) (st : DecState)
    (hset : st.asfh.all_set = false)
    (hpre : FRM_SIGN.isPrefixOf st.asfh.hbuf = false)
    (hfp : findPattern st.buffer FRM_SIGN = none) :
    stepOnce cfg st
      = .brk { st with buffer := st.buffer.drop (st.buffer.length - 4) }
          [] [] .needData := by
  unfold stepOnce
  rw [if_neg (show ¬(st.asfh.all_set = true) by rw [hset]; simp),
    if_neg (show ¬(FRM_SIGN.isPrefixOf st.asfh.hbuf = true) by rw [hpre]; simp),
    hfp]

/-- A continuing triage is insensitive to appended bytes: the appended bytes
land in the successor state's buffer. -/
theorem rbTriage_cont_absorb (cfg : Cfg) (hM : RbMono cfg.rb)
    (st st2 : DecState) (out : List (List ℚ)) (ev : List Ev)
    (a0 : ASFH) (buf0 b : List Nat)
    (h : rbTriage cfg st a0 buf0 = .cont st2 out ev) :
    rbTriage cfg (absorb st b) a0 (buf0 ++ b) = .cont (absorb st2 b) out ev := by
  rw [absorb_mk st b]
  unfold rbTriage at h ⊢
  dsimp only at h ⊢
  rcases hres : (cfg.rb a0 buf0).res with _ | fb
  · rw [hres] at h
    exact absurd h (by simp)
  · have hm := hM a0 buf0 b (by rw [hres]; simp)
    rw [hm]
    dsimp only
    rw [hres] at h ⊢
    cases fb
    · dsimp only at h ⊢
      by_cases hcrit : (cfg.rb a0 buf0).asfh.criteq st.info
      · rw [if_pos hcrit] at h
        rw [if_pos hcrit]
        rw [StepRes.cont.injEq] at h
        obtain ⟨hst, hout, hev⟩ := h
        subst hst hout hev
        rfl
      · rw [if_neg hcrit] at h
        rw [if_neg hcrit]
        by_cases hnz : st.info.srate ≠ 0 ∨ st.info.channels ≠ 0
        · rw [if_pos hnz] at h
          exact absurd h (by simp)
        · rw [if_neg hnz] at h
          rw [if_neg hnz]
          rw [StepRes.cont.injEq] at h
          obtain ⟨hst, hout, hev⟩ := h
          subst hst hout hev
          rfl
    · exact absurd h (by simp)

/-- A needData break out of the triage is the incomplete-header case: no
output, no events, and the successor state stashes the parser state. -/
theorem rbTriage_brk_needData (cfg : Cfg) (st st2 : DecState)
    (out : List (List ℚ)) (ev : List Ev) (a0 : ASFH) (buf0 : List Nat)
    (h : rbTriage cfg st a0 buf0 = .brk st2 out ev .needData) :
    out = [] ∧ ev = [] ∧ (cfg.rb a0 buf0).res = none ∧
      st2 = ⟨(cfg.rb a0 buf0).asfh, st.info, (cfg.rb a0 buf0).buf,
             st.overlap⟩ := by
  unfold rbTriage at h
  dsimp only at h
  rcases hres : (cfg.rb a0 buf0).res with _ | fb
  · rw [hres] at h
    dsimp only at h
    rw [StepRes.brk.injEq] at h
    obtain ⟨hst, hout, hev, _⟩ := h
    exact ⟨hout.symm, hev.symm, rfl, hst.symm⟩
  · rw [hres] at h
    cases fb
    · dsimp only at h
      by_cases hcrit : (cfg.rb a0 buf0).asfh.criteq st.info
      · rw [if_pos hcrit] at h
        exact absurd h (by simp)
      · rw [if_neg hcrit] at h
        by_cases hnz : st.info.srate ≠ 0 ∨ st.info.channels ≠ 0
        · rw [if_pos hnz] at h
          rw [StepRes.brk.injEq] at h
          obtain ⟨_, _, _, hex⟩ := h
          exact absurd hex (by simp)
        · rw [if_neg hnz] at h
          exact absurd h (by simp)
    · dsimp only at h
      rw [StepRes.brk.injEq] at h
      obtain ⟨_, _, _, hex⟩ := h
      exact absurd hex (by simp)

/-- Resuming from a stashed incomplete parse: stepping the stashed state with
extra bytes is the triage of the whole buffer at once. -/
theorem stepOnce_resume (cfg : Cfg) (hI : RbIncr cfg.rb)
    (hS : RbStash cfg.rb) (hU : RbUnset cfg.rb)
    (I : ASFH) (OV : List (List ℚ)) (a0 : ASFH) (buf0 b : List Nat)
    (hpre0 : FRM_SIGN.isPrefixOf a0.hbuf = true)
    (hres : (cfg.rb a0 buf0).res = none) :
    stepOnce cfg ⟨(cfg.rb a0 buf0).asfh, I, (cfg.rb a0 buf0).buf ++ b, OV⟩
      = rbTriage cfg ⟨ASFH.new, I, [], OV⟩ a0 (buf0 ++ b) := by
  rw [stepOnce_acq_pre cfg _ (hU a0 buf0 hres) (hS a0 buf0 hpre0 hres)]
  show rbTriage cfg ⟨(cfg.rb a0 buf0).asfh, I, (cfg.rb a0 buf0).buf ++ b, OV⟩
    ((cfg.rb a0 buf0).asfh) ((cfg.rb a0 buf0).buf ++ b) = _
  rw [rbTriage_rb_eq cfg _ _ a0 _ (buf0 ++ b) (hI a0 buf0 b hres)]
  exact rbTriage_congr cfg _ _ a0 (buf0 ++ b) rfl rfl

/-- A loop iteration that continues is insensitive to bytes appended past the
data it consumed: the same PCM and events come out and the appended bytes
land in the successor state's buffer. -/
theorem stepOnce_cont_absorb (cfg : Cfg) (hM : RbMono cfg.rb)
    (st st2 : DecState) (out : List (List ℚ)) (ev : List Ev) (b : List Nat)
    (h : stepOnce cfg st = .cont st2 out ev) :
    stepOnce cfg (absorb st b) = .cont (absorb st2 b) out ev := by
  rcases hset : st.asfh.all_set with _ | _
  · -- acquisition branch
    rcases hpre : FRM_SIGN.isPrefixOf st.asfh.hbuf with _ | _
    · rcases hfp : findPattern st.buffer FRM_SIGN with _ | i
      · rw [stepOnce_acq_miss cfg st hset hpre hfp] at h
        exact absurd h (by simp)
      · rw [stepOnce_acq_found cfg st i hset hpre hfp] at h
        have hle : i + FRM_SIGN.length ≤ st.buffer.length :=
          findPattern_le _ _ _ hfp
        have hle4 : i + 4 ≤ st.buffer.length := by
          simpa [FRM_SIGN] using hle
        rw [stepOnce_acq_found cfg (absorb st b) i hset hpre
          (findPattern_append_some _ _ b i hfp)]
        show rbTriage cfg (absorb st b)
            { st.asfh with hbuf := ((st.buffer ++ b).drop i).take 4 }
            ((st.buffer ++ b).drop (i + 4)) = _
        have h1 : (st.buffer ++ b).drop i = st.buffer.drop i ++ b :=
          List.drop_append_of_le_length (by omega)
        have h2 : (st.buffer.drop i ++ b).take 4 = (st.buffer.drop i).take 4 :=
          List.take_append_of_le_length (by simp [List.length_drop]; omega)
        have h3 : (st.buffer ++ b).drop (i + 4) = st.buffer.drop (i + 4) ++ b :=
          List.drop_append_of_le_length (by omega)
        rw [h1, h2, h3]
        exact rbTriage_cont_absorb cfg hM st st2 out ev _ _ b h
    · rw [stepOnce_acq_pre cfg st hset hpre] at h
      rw [stepOnce_acq_pre cfg (absorb st b) hset hpre]
      show rbTriage cfg (absorb st b) st.asfh (st.buffer ++ b) = _
      exact rbTriage_cont_absorb cfg hM st st2 out ev _ _ b h
  · -- frame branch
    rw [absorb_mk st b]
    unfold stepOnce at h ⊢
    dsimp only at h ⊢
    rw [if_pos hset] at h ⊢
    by_cases hlen : st.buffer.length < st.asfh.frmbytes
    · rw [if_pos hlen] at h
      exact absurd h (by simp)
    · rw [if_neg hlen] at h
      have hlen2 : ¬((st.buffer ++ b).length < st.asfh.frmbytes) := by
        simp only [List.length_append]
        omega
      rw [if_neg hlen2]
      have hfrm : st.asfh.frmbytes ≤ st.buffer.length := Nat.le_of_not_lt hlen
      rw [List.take_append_of_le_length hfrm, List.drop_append_of_le_length hfrm]
      split at h
      · exact absurd h (by simp)
      · split at h
        · exact absurd h (by simp)
        · rw [StepRes.cont.injEq] at h
          obtain ⟨hst, hout, hev⟩ := h
          subst hst hout hev
          rfl

/-- A needData break emits nothing, and afterwards the loop behaves on any
further input exactly as if the input had arrived in one call: the step
functions of the extended original state and the extended broken state
agree. -/
theorem stepOnce_brk_needData (cfg : Cfg) (hI : RbIncr cfg.rb)
    (hS : RbStash cfg.rb) (hU : RbUnset cfg.rb)
    (st st2 : DecState) (out : List (List ℚ)) (ev : List Ev)
    (h : stepOnce cfg st = .brk st2 out ev .needData) :
    out = [] ∧ ev = [] ∧
      ∀ b, stepOnce cfg (absorb st b) = stepOnce cfg (absorb st2 b) := by
  rcases hset : st.asfh.all_set with _ | _
  · -- acquisition branch
    rcases hpre : FRM_SIGN.isPrefixOf st.asfh.hbuf with _ | _
    · rcases hfp : findPattern st.buffer FRM_SIGN with _ | i
      · -- miss: trim to the last four bytes
        rw [stepOnce_acq_miss cfg st hset hpre hfp] at h
        rw [StepRes.brk.injEq] at h
        obtain ⟨hst, hout, hev, _⟩ := h
        refine ⟨hout.symm, hev.symm, fun b => ?_⟩
        rw [← hst]
        have hfl : FRM_SIGN.length = 4 := rfl
        have hNA := findPattern_none_append FRM_SIGN st.buffer b hfp
        rw [hfl] at hNA
        rcases hq : findPattern (st.buffer.drop (st.buffer.length - 4) ++ b)
            FRM_SIGN with _ | j
        · rw [hq] at hNA
          rw [stepOnce_acq_miss cfg (absorb st b) hset hpre
            (by simpa using hNA)]
          rw [stepOnce_acq_miss cfg
            (absorb { st with buffer := st.buffer.drop (st.buffer.length - 4) } b)
            hset hpre hq]
          show StepRes.brk ⟨st.asfh, st.info,
              (st.buffer ++ b).drop ((st.buffer ++ b).length - 4), st.overlap⟩
              [] [] .needData
            = StepRes.brk ⟨st.asfh, st.info,
              ((st.buffer.drop (st.buffer.length - 4)) ++ b).drop
                (((st.buffer.drop (st.buffer.length - 4)) ++ b).length - 4),
              st.overlap⟩ [] [] .needData
          rw [trim_append st.buffer b]
        · rw [hq] at hNA
          rw [stepOnce_acq_found cfg (absorb st b) (j + (st.buffer.length - 4))
            hset hpre (by simpa using hNA)]
          rw [stepOnce_acq_found cfg
            (absorb { st with buffer := st.buffer.drop (st.buffer.length - 4) } b)
            j hset hpre hq]
          show rbTriage cfg (absorb st b)
              { st.asfh with
                hbuf := ((st.buffer ++ b).drop
                  (j + (st.buffer.length - 4))).take 4 }
              ((st.buffer ++ b).drop (j + (st.buffer.length - 4) + 4))
            = rbTriage cfg
              (absorb { st with buffer := st.buffer.drop (st.buffer.length - 4) } b)
              { st.asfh with
                hbuf := (((st.buffer.drop (st.buffer.length - 4)) ++ b).drop
                  j).take 4 }
              (((st.buffer.drop (st.buffer.length - 4)) ++ b).drop (j + 4))
          have htlen : (st.buffer.take (st.buffer.length - 4)).length
              = st.buffer.length - 4 := by
            simp only [List.length_take]
            omega
          have hsplit : st.buffer ++ b
              = st.buffer.take (st.buffer.length - 4)
                ++ (st.buffer.drop (st.buffer.length - 4) ++ b) := by
            rw [← List.append_assoc, List.take_append_drop]
          have hd1 : (st.buffer ++ b).drop (j + (st.buffer.length - 4))
              = (st.buffer.drop (st.buffer.length - 4) ++ b).drop j := by
            rw [hsplit, List.drop_append_eq_append_drop,
              List.drop_eq_nil_of_le (by rw [htlen]; omega), List.nil_append,
              htlen]
            congr 1
            omega
          have hd2 : (st.buffer ++ b).drop (j + (st.buffer.length - 4) + 4)
              = (st.buffer.drop (st.buffer.length - 4) ++ b).drop (j + 4) := by
            rw [hsplit, List.drop_append_eq_append_drop,
              List.drop_eq_nil_of_le (by rw [htlen]; omega), List.nil_append,
              htlen]
            congr 1
            omega
          rw [hd1, hd2]
          exact rbTriage_congr cfg _ _ _ _ rfl rfl
      · -- found: incomplete parse from the seeded header
        rw [stepOnce_acq_found cfg st i hset hpre hfp] at h
        obtain ⟨hout, hev, hres, hst2⟩ :=
          rbTriage_brk_needData cfg st st2 out ev _ _ h
        refine ⟨hout, hev, fun b => ?_⟩
        have hle : i + FRM_SIGN.length ≤ st.buffer.length :=
          findPattern_le _ _ _ hfp
        have hle4 : i + 4 ≤ st.buffer.length := by
          simpa [FRM_SIGN] using hle
        have hseed : (st.buffer.drop i).take 4 = FRM_SIGN := by
          have := findPattern_spec st.buffer FRM_SIGN i hfp
          simpa using this
        have hpre0 : FRM_SIGN.isPrefixOf
            ({ st.asfh with hbuf := (st.buffer.drop i).take 4 } : ASFH).hbuf
              = true := by
          dsimp only
          rw [hseed]
          exact isPrefixOf_self FRM_SIGN
        rw [hst2]
        have hR : stepOnce cfg
            (absorb (⟨(cfg.rb { st.asfh with
                  hbuf := (st.buffer.drop i).take 4 }
                (st.buffer.drop (i + 4))).asfh, st.info,
              (cfg.rb { st.asfh with hbuf := (st.buffer.drop i).take 4 }
                (st.buffer.drop (i + 4))).buf, st.overlap⟩ : DecState) b)
            = rbTriage cfg ⟨ASFH.new, st.info, [], st.overlap⟩
              { st.asfh with hbuf := (st.buffer.drop i).take 4 }
              (st.buffer.drop (i + 4) ++ b) :=
          stepOnce_resume cfg hI hS hU st.info st.overlap _ _ b hpre0 hres
        rw [hR]
        rw [stepOnce_acq_found cfg (absorb st b) i hset hpre
          (findPattern_append_some _ _ b i hfp)]
        show rbTriage cfg (absorb st b)
            { st.asfh with hbuf := ((st.buffer ++ b).drop i).take 4 }
            ((st.buffer ++ b).drop (i + 4)) = _
        have h1 : (st.buffer ++ b).drop i = st.buffer.drop i ++ b :=
          List.drop_append_of_le_length (by omega)
        have h2 : (st.buffer.drop i ++ b).take 4 = (st.buffer.drop i).take 4 :=
          List.take_append_of_le_length (by simp [List.length_drop]; omega)
        have h3 : (st.buffer ++ b).drop (i + 4) = st.buffer.drop (i + 4) ++ b :=
          List.drop_append_of_le_length (by omega)
        rw [h1, h2, h3]
        exact rbTriage_congr cfg _ _ _ _ rfl rfl
    · -- header buffer already synced: incomplete parse
      rw [stepOnce_acq_pre cfg st hset hpre] at h
      obtain ⟨hout, hev, hres, hst2⟩ :=
        rbTriage_brk_needData cfg st st2 out ev _ _ h
      refine ⟨hout, hev, fun b => ?_⟩
      rw [hst2]
      have hR : stepOnce cfg
          (absorb (⟨(cfg.rb st.asfh st.buffer).asfh, st.info,
            (cfg.rb st.asfh st.buffer).buf, st.overlap⟩ : DecState) b)
          = rbTriage cfg ⟨ASFH.new, st.info, [], st.overlap⟩
            st.asfh (st.buffer ++ b) :=
        stepOnce_resume cfg hI hS hU st.info st.overlap _ _ b hpre hres
      rw [hR]
      rw [stepOnce_acq_pre cfg (absorb st b) hset hpre]
      show rbTriage cfg (absorb st b) st.asfh (st.buffer ++ b) = _
      exact rbTriage_congr cfg _ _ _ _ rfl rfl
  · -- frame branch
    by_cases hlen : st.buffer.length < st.asfh.frmbytes
    · rw [stepOnce_frame_wait cfg st hset hlen] at h
      rw [StepRes.brk.injEq] at h
      obtain ⟨hst, hout, hev, _⟩ := h
      exact ⟨hout.symm, hev.symm, fun b => by rw [← hst]⟩
    · unfold stepOnce at h
      rw [if_pos hset] at h
      rw [if_neg hlen] at h
      dsimp only at h
      split at h
      · exact absurd h (by simp)
      · split at h
        · exact absurd h (by simp)
        · exact absurd h (by simp)

theorem prepOut_nil (r : LoopOut) : prepOut [] [] r = r := by
  cases r <;> simp [prepOut]

theorem loopRun_succ (cfg : Cfg) (fuel : Nat) (st : DecState) :
    loopRun cfg (fuel + 1) st
      = match stepOnce cfg st with
        | .fail => some .crashed
        | .brk st2 out ev ex => some (.ok out ev st2 ex)
        | .cont st2 out ev =>
          match loopRun cfg fuel st2 with
          | none => none
          | some .crashed => some .crashed
          | some (.ok out2 evs2 st3 ex) =>
            some (.ok (out ++ out2) (ev ++ evs2) st3 ex) := rfl

/-- Extra fuel never changes a completed run. -/
theorem loopRun_fuel_mono (cfg : Cfg) :
    ∀ (f g : Nat) (st : DecState) (r : LoopOut),
      loopRun cfg f st = some r → loopRun cfg (f + g) st = some r := by
  intro f
  induction f with
  | zero =>
    intro g st r h
    simp [loopRun] at h
  | succ f ih =>
    intro g st r h
    have hidx : f + 1 + g = (f + g) + 1 := by omega
    rw [hidx, loopRun_succ]
    rw [loopRun_succ] at h
    cases hs : stepOnce cfg st with
    | fail =>
      rw [hs] at h
      exact h
    | brk st2 out ev ex =>
      rw [hs] at h
      exact h
    | cont st2 out ev =>
      rw [hs] at h
      dsimp only at h ⊢
      rcases hr : loopRun cfg f st2 with _ | r2
      · rw [hr] at h
        simp at h
      · rw [ih g st2 r2 hr]
        rw [hr] at h
        exact h

/-- Sequential composition of two `process` calls with combined fuel: a call
ending in needData followed by a call on the appended bytes equals the single
call on all bytes at once. -/
theorem loopRun_compose (cfg : Cfg) (hM : RbMono cfg.rb) (hI : RbIncr cfg.rb)
    (hS : RbStash cfg.rb) (hU : RbUnset cfg.rb) :
    ∀ (f1 : Nat) (st st1 : DecState) (out1 : List (List ℚ)) (evs1 : List Ev)
      (f2 : Nat) (b : List Nat) (r2 : LoopOut),
      loopRun cfg f1 st = some (.ok out1 evs1 st1 .needData) →
      loopRun cfg f2 (absorb st1 b) = some r2 →
      loopRun cfg (f1 + f2) (absorb st b) = some (prepOut out1 evs1 r2) := by
  intro f1
  induction f1 with
  | zero =>
    intro st st1 out1 evs1 f2 b r2 h1 h2
    simp [loopRun] at h1
  | succ f ih =>
    intro st st1 out1 evs1 f2 b r2 h1 h2
    rw [loopRun_succ] at h1
    cases hs : stepOnce cfg st with
    | fail =>
      rw [hs] at h1
      simp at h1
    | brk st2 out ev ex =>
      rw [hs] at h1
      dsimp only at h1
      rw [Option.some.injEq, LoopOut.ok.injEq] at h1
      obtain ⟨ho, he, hstq, hex⟩ := h1
      subst ho he hstq hex
      obtain ⟨hout0, hev0, hstep⟩ :=
        stepOnce_brk_needData cfg hI hS hU st st2 out ev hs
      subst hout0 hev0
      rw [prepOut_nil]
      have harith : f + 1 + f2 = (f + f2) + 1 := by omega
      rw [harith, loopRun_succ, hstep b]
      have h2' : loopRun cfg ((f + f2) + 1) (absorb st2 b) = some r2 := by
        have hmono := loopRun_fuel_mono cfg f2 (f + 1) (absorb st2 b) r2 h2
        have harith2 : f2 + (f + 1) = (f + f2) + 1 := by omega
        rwa [harith2] at hmono
      rw [← loopRun_succ]
      exact h2'
    | cont st2 out ev =>
      rw [hs] at h1
      dsimp only at h1
      rcases hr : loopRun cfg f st2 with _ | rr
      · rw [hr] at h1
        simp at h1
      · rw [hr] at h1
        cases rr with
        | crashed => simp at h1
        | ok o2 e2 s3 ex2 =>
          rw [Option.some.injEq, LoopOut.ok.injEq] at h1
          obtain ⟨ho, he, hstq, hex⟩ := h1
          subst ho he hstq hex
          have hstep := stepOnce_cont_absorb cfg hM st st2 out ev b hs
          have hih := ih st2 s3 o2 e2 f2 b r2 hr h2
          have harith : f + 1 + f2 = (f + f2) + 1 := by omega
          rw [harith, loopRun_succ, hstep]
          dsimp only
          rw [hih]
          cases r2 <;> simp [prepOut, List.append_assoc]

theorem runChunks_cons (cfg : Cfg) (fuel : Nat) (st : DecState)
    (c : List Nat) (cs : List (List Nat)) :
    runChunks cfg fuel st (c :: cs)
      = match loopRun cfg fuel (absorb st c) with
        | some (.ok out evs st2 ex) =>
          match runChunks cfg fuel st2 cs with
          | some (out2, evs2, st3, exs) =>
            some (out ++ out2, evs ++ evs2, st3, ex :: exs)
          | none => none
        | _ => none := rfl

/-- Feeding the chunks one call at a time, with every call ending in
needData, equals one call on the concatenated bytes with the combined
fuel. -/
theorem runChunks_single (cfg : Cfg) (hM : RbMono cfg.rb) (hI : RbIncr cfg.rb)
    (hS : RbStash cfg.rb) (hU : RbUnset cfg.rb) :
    ∀ (chunks : List (List Nat)) (st : DecState) (fuel : Nat)
      (out : List (List ℚ)) (evs : List Ev) (st' : DecState)
      (exs : List ExitR),
      chunks ≠ [] →
      runChunks cfg fuel st chunks = some (out, evs, st', exs) →
      (∀ x ∈ exs, x = ExitR.needData) →
      loopRun cfg (fuel * chunks.length) (absorb st chunks.flatten)
        = some (.ok out evs st' .needData) := by
  intro chunks
  induction chunks with
  | nil =>
    intro st fuel out evs st' exs hne
    exact absurd rfl hne
  | cons c cs ih =>
    intro st fuel out evs st' exs hne hrun hexs
    rw [runChunks_cons] at hrun
    rcases hl : loopRun cfg fuel (absorb st c) with _ | r1
    · rw [hl] at hrun
      simp at hrun
    · rw [hl] at hrun
      cases r1 with
      | crashed => simp at hrun
      | ok out1 evs1 st2 ex =>
        dsimp only at hrun
        rcases hr : runChunks cfg fuel st2 cs with _ | rr
        · rw [hr] at hrun
          simp at hrun
        · obtain ⟨out2, evs2, st3, exs2⟩ := rr
          rw [hr] at hrun
          dsimp only at hrun
          rw [Option.some.injEq, Prod.mk.injEq, Prod.mk.injEq,
            Prod.mk.injEq] at hrun
          obtain ⟨ho, he, hstq, hexq⟩ := hrun
          subst ho he hstq hexq
          have hex1 : ex = ExitR.needData := hexs ex (by simp)
          subst hex1
          cases cs with
          | nil =>
            have hr0 : out2 = [] ∧ evs2 = [] ∧ st2 = st3 ∧ exs2 = [] := by
              have : (some ([], [], st2, []) :
                  Option (List (List ℚ) × List Ev × DecState × List ExitR))
                    = some (out2, evs2, st3, exs2) := hr
              simp only [Option.some.injEq, Prod.mk.injEq] at this
              exact ⟨this.1.symm, this.2.1.symm, this.2.2.1, this.2.2.2.symm⟩
            obtain ⟨h1, h2, h3, h4⟩ := hr0
            subst h1 h2 h3 h4
            simp only [List.flatten, List.append_nil, List.length_cons,
              List.length_nil, Nat.mul_one]
            simpa using hl
          | cons c2 cs2 =>
            have hih := ih st2 fuel out2 evs2 st3 exs2 (by simp) hr
              (fun x hx => hexs x (by simp [hx]))
            have hcomp := loopRun_compose cfg hM hI hS hU fuel (absorb st c)
              st2 out1 evs1 (fuel * (c2 :: cs2).length) (c2 :: cs2).flatten
              (.ok out2 evs2 st3 .needData) hl hih
            rw [absorb_absorb] at hcomp
            have harith : fuel + fuel * (c2 :: cs2).length
                = fuel * (c :: c2 :: cs2).length := by
              simp only [List.length_cons]
              ring
            rw [harith] at hcomp
            have hflat : c ++ (c2 :: cs2).flatten = (c :: c2 :: cs2).flatten := by
              simp [List.flatten]
            rw [hflat] at hcomp
            simpa [prepOut] using hcomp

theorem seenAfter_append (s : Bool) (e1 e2 : List Ev) :
    seenAfter s (e1 ++ e2) = seenAfter (seenAfter s e1) e2 := by
  induction e1 generalizing s with
  | nil => rfl
  | cons e t ih => cases e <;> simp [seenAfter, ih]

theorem goodTrace_append (s : Bool) (e1 e2 : List Ev) :
    goodTrace s (e1 ++ e2)
      = (goodTrace s e1 && goodTrace (seenAfter s e1) e2) := by
  induction e1 generalizing s with
  | nil => simp [goodTrace, seenAfter]
  | cons e t ih =>
    cases e <;> simp [goodTrace, seenAfter, ih, Bool.and_assoc]

theorem infoNonzero_of_cond (a : ASFH) (h : a.srate ≠ 0 ∨ a.channels ≠ 0) :
    infoNonzero a = true := by
  simp only [infoNonzero, Bool.or_eq_true, bne_iff_ne]
  exact h

/-- The triage emits a well-formed trace and maintains the seen-flag
invariant: reconfig fires only with a non-empty info snapshot, and the flag
stays an upper bound on the snapshot's non-emptiness. -/
theorem rbTriage_trace (cfg : Cfg) (st : DecState) (a0 : ASFH)
    (buf0 : List Nat) (s : Bool)
    (hinv : infoNonzero st.info = true → s = true) :
    (∀ st2 out ev, rbTriage cfg st a0 buf0 = .cont st2 out ev →
      goodTrace s ev = true ∧
        (infoNonzero st2.info = true → seenAfter s ev = true)) ∧
    (∀ st2 out ev ex, rbTriage cfg st a0 buf0 = .brk st2 out ev ex →
      goodTrace s ev = true ∧
        (infoNonzero st2.info = true → seenAfter s ev = true)) := by
  unfold rbTriage
  dsimp only
  rcases hres : (cfg.rb a0 buf0).res with _ | fb
  · refine ⟨fun st2 out ev h => absurd h (by simp), fun st2 out ev ex h => ?_⟩
    dsimp only at h
    rw [StepRes.brk.injEq] at h
    obtain ⟨hst, _, hev, _⟩ := h
    subst hev
    refine ⟨rfl, fun hz => hinv ?_⟩
    rw [← hst] at hz
    exact hz
  · cases fb
    · dsimp only
      by_cases hcrit : (cfg.rb a0 buf0).asfh.criteq st.info
      · rw [if_pos hcrit]
        refine ⟨fun st2 out ev h => ?_, fun st2 out ev ex h => absurd h (by simp)⟩
        rw [StepRes.cont.injEq] at h
        obtain ⟨hst, _, hev⟩ := h
        subst hev
        refine ⟨rfl, fun hz => hinv ?_⟩
        rw [← hst] at hz
        exact hz
      · rw [if_neg hcrit]
        by_cases hnz : st.info.srate ≠ 0 ∨ st.info.channels ≠ 0
        · rw [if_pos hnz]
          refine ⟨fun st2 out ev h => absurd h (by simp),
            fun st2 out ev ex h => ?_⟩
          rw [StepRes.brk.injEq] at h
          obtain ⟨hst, _, hev, _⟩ := h
          subst hev
          have hs : s = true := hinv (infoNonzero_of_cond st.info hnz)
          subst hs
          refine ⟨rfl, fun hz => ?_⟩
          rw [← hst] at hz
          simp [infoNonzero, ASFH.new] at hz
        · rw [if_neg hnz]
          refine ⟨fun st2 out ev h => ?_, fun st2 out ev ex h => absurd h (by simp)⟩
          rw [StepRes.cont.injEq] at h
          obtain ⟨hst, _, hev⟩ := h
          subst hev
          exact ⟨rfl, fun _ => rfl⟩
    · dsimp only
      refine ⟨fun st2 out ev h => absurd h (by simp), fun st2 out ev ex h => ?_⟩
      rw [StepRes.brk.injEq] at h
      obtain ⟨hst, _, hev, _⟩ := h
      subst hev
      refine ⟨rfl, fun hz => hinv ?_⟩
      rw [← hst] at hz
      exact hz

/-- One loop iteration emits a well-formed trace and maintains the seen-flag
invariant. -/
theorem stepOnce_trace (cfg : Cfg) (st : DecState) (s : Bool)
    (hinv : infoNonzero st.info = true → s = true) :
    (∀ st2 out ev, stepOnce cfg st = .cont st2 out ev →
      goodTrace s ev = true ∧
        (infoNonzero st2.info = true → seenAfter s ev = true)) ∧
    (∀ st2 out ev ex, stepOnce cfg st = .brk st2 out ev ex →
      goodTrace s ev = true ∧
        (infoNonzero st2.info = true → seenAfter s ev = true)) := by
  rcases hset : st.asfh.all_set with _ | _
  · rcases hpre : FRM_SIGN.isPrefixOf st.asfh.hbuf with _ | _
    · rcases hfp : findPattern st.buffer FRM_SIGN with _ | i
      · rw [stepOnce_acq_miss cfg st hset hpre hfp]
        refine ⟨fun st2 out ev h => absurd h (by simp),
          fun st2 out ev ex h => ?_⟩
        rw [StepRes.brk.injEq] at h
        obtain ⟨hst, _, hev, _⟩ := h
        subst hev
        refine ⟨rfl, fun hz => hinv ?_⟩
        rw [← hst] at hz
        exact hz
      · rw [stepOnce_acq_found cfg st i hset hpre hfp]
        exact rbTriage_trace cfg st _ _ s hinv
    · rw [stepOnce_acq_pre cfg st hset hpre]
      exact rbTriage_trace cfg st _ _ s hinv
  · by_cases hlen : st.buffer.length < st.asfh.frmbytes
    · rw [stepOnce_frame_wait cfg st hset hlen]
      refine ⟨fun st2 out ev h => absurd h (by simp),
        fun st2 out ev ex h => ?_⟩
      rw [StepRes.brk.injEq] at h
      obtain ⟨hst, _, hev, _⟩ := h
      subst hev
      refine ⟨rfl, fun hz => hinv ?_⟩
      rw [← hst] at hz
      exact hz
    · constructor
      · intro st2 out ev h
        unfold stepOnce at h
        rw [if_pos hset, if_neg hlen] at h
        dsimp only at h
        split at h
        · exact absurd h (by simp)
        · split at h
          · exact absurd h (by simp)
          · rw [StepRes.cont.injEq] at h
            obtain ⟨hst, _, hev⟩ := h
            subst hev
            refine ⟨rfl, fun hz => hinv ?_⟩
            rw [← hst] at hz
            exact hz
      · intro st2 out ev ex h
        unfold stepOnce at h
        rw [if_pos hset, if_neg hlen] at h
        dsimp only at h
        split at h
        · exact absurd h (by simp)
        · split at h
          · exact absurd h (by simp)
          · exact absurd h (by simp)

/-- A whole `process` call emits a well-formed trace and maintains the
seen-flag invariant. -/
theorem loopRun_trace (cfg : Cfg) :
    ∀ (fuel : Nat) (st : DecState) (s : Bool) (out : List (List ℚ))
      (evs : List Ev) (st' : DecState) (ex : ExitR),
      (infoNonzero st.info = true → s = true) →
      loopRun cfg fuel st = some (.ok out evs st' ex) →
      goodTrace s evs = true ∧
        (infoNonzero st'.info = true → seenAfter s evs = true) := by
  intro fuel
  induction fuel with
  | zero =>
    intro st s out evs st' ex hinv h
    simp [loopRun] at h
  | succ f ih =>
    intro st s out evs st' ex hinv h
    rw [loopRun_succ] at h
    cases hs : stepOnce cfg st with
    | fail =>
      rw [hs] at h
      simp at h
    | brk st2 o e x =>
      rw [hs] at h
      dsimp only at h
      rw [Option.some.injEq, LoopOut.ok.injEq] at h
      obtain ⟨ho, he, hstq, hex⟩ := h
      subst ho he hstq hex
      exact (stepOnce_trace cfg st s hinv).2 _ _ _ _ hs
    | cont st2 o e =>
      rw [hs] at h
      dsimp only at h
      rcases hr : loopRun cfg f st2 with _ | rr
      · rw [hr] at h
        simp at h
      · rw [hr] at h
        cases rr with
        | crashed => simp at h
        | ok o2 e2 s3 x2 =>
          rw [Option.some.injEq, LoopOut.ok.injEq] at h
          obtain ⟨ho, he, hstq, hex⟩ := h
          subst ho he hstq hex
          obtain ⟨hg1, hinv2⟩ := (stepOnce_trace cfg st s hinv).1 st2 o e hs
          obtain ⟨hg2, hinv3⟩ := ih st2 (seenAfter s e) o2 e2 s3 x2 hinv2 hr
          refine ⟨?_, ?_⟩
          · rw [goodTrace_append, hg1, hg2]
            rfl
          · intro hz
            rw [seenAfter_append]
            exact hinv3 hz

/-- A chunked feed emits a well-formed trace. -/
theorem runChunks_trace (cfg : Cfg) (fuel : Nat) :
    ∀ (chunks : List (List Nat)) (st : DecState) (s : Bool)
      (out : List (List ℚ)) (evs : List Ev) (st' : DecState)
      (exs : List ExitR),
      (infoNonzero st.info = true → s = true) →
      runChunks cfg fuel st chunks = some (out, evs, st', exs) →
      goodTrace s evs = true := by
  intro chunks
  induction chunks with
  | nil =>
    intro st s out evs st' exs hinv h
    simp only [runChunks, Option.some.injEq, Prod.mk.injEq] at h
    obtain ⟨_, he, _⟩ := h
    rw [← he]
    rfl
  | cons c cs ih =>
    intro st s out evs st' exs hinv h
    rw [runChunks_cons] at h
    rcases hl : loopRun cfg fuel (absorb st c) with _ | r1
    · rw [hl] at h
      simp at h
    · rw [hl] at h
      cases r1 with
      | crashed => simp at h
      | ok out1 evs1 st2 ex =>
        dsimp only at h
        rcases hr : runChunks cfg fuel st2 cs with _ | rr
        · rw [hr] at h
          simp at h
        · obtain ⟨out2, evs2, st3, exs2⟩ := rr
          rw [hr] at h
          dsimp only at h
          rw [Option.some.injEq, Prod.mk.injEq, Prod.mk.injEq,
            Prod.mk.injEq] at h
          obtain ⟨ho, he, hstq, hexq⟩ := h
          subst ho he hstq hexq
          obtain ⟨hg1, hinv2⟩ := loopRun_trace cfg fuel (absorb st c) s out1
            evs1 st2 ex hinv hl
          have hg2 := ih st2 (seenAfter s evs1) out2 evs2 st3 exs2 hinv2 hr
          rw [goodTrace_append, hg1, hg2]
          rfl

end FrAD

/-- C3: whenever the sync search runs (header incomplete, stash not carrying
the sync word) and misses, the code keeps the last FOUR bytes of the buffer,
not the last three the claim states: on a five-byte all-zero buffer the
returned state buffers four bytes. -/
theorem FrAD.C3_counterexample :
    FrAD.stepOnce FrAD.cfgTriv
        ⟨FrAD.ASFH.new, FrAD.ASFH.new, [0, 0, 0, 0, 0], []⟩
      = .brk ⟨FrAD.ASFH.new, FrAD.ASFH.new, [0, 0, 0, 0], []⟩ [] []
          .needData
    ∧ ([0, 0, 0, 0] : List Nat).length ≠ 3 := by
  constructor
  · decide
  · decide

/-- C3 (amended): on a sync-search miss the call breaks with no output and
the buffer trimmed to exactly its last four bytes (the whole buffer when it
is shorter than four). -/
theorem FrAD.C3_desync_trims_to_four (cfg : FrAD.Cfg) (st : FrAD.DecState)
    (hset : st.asfh.all_set = false)
    (hpre : FrAD.FRM_SIGN.isPrefixOf st.asfh.hbuf = false)
    (hfp : FrAD.findPattern st.buffer FrAD.FRM_SIGN = none) :
    FrAD.stepOnce cfg st
      = .brk { st with buffer := st.buffer.drop (st.buffer.length - 4) }
          [] [] .needData
    ∧ (st.buffer.drop (st.buffer.length - 4)).length
        = min 4 st.buffer.length := by
  refine ⟨FrAD.stepOnce_acq_miss cfg st hset hpre hfp, ?_⟩
  simp only [List.length_drop]
  omega

/-- C3 witness: the amended trim theorem evaluated on a six-byte
signature-free buffer keeps the final four bytes. -/
theorem FrAD.C3_witness :
    FrAD.stepOnce FrAD.cfgTriv
        ⟨FrAD.ASFH.new, FrAD.ASFH.new, [1, 2, 3, 4, 5, 6], []⟩
      = .brk ⟨FrAD.ASFH.new, FrAD.ASFH.new, [3, 4, 5, 6], []⟩ [] []
          .needData
    ∧ ([1, 2, 3, 4, 5, 6] : List Nat).drop (6 - 4) = [3, 4, 5, 6] :=
  ⟨(FrAD.C3_desync_trims_to_four FrAD.cfgTriv
      ⟨FrAD.ASFH.new, FrAD.ASFH.new, [1, 2, 3, 4, 5, 6], []⟩
      (by decide) (by decide) (by decide)).1, by decide⟩

/-- C4: the single-call/chunked-feed equivalence fails across a reconfig
boundary.  On the three-header stream `sC4`, feeding `[sC4, []]` in two
calls yields (with the final flush) four PCM rows — the second call resyncs
on the third header and decodes its frame — while the single call on the
same bytes returns early at the reconfig boundary and yields only two. -/
theorem FrAD.C4_counterexample :
    ((FrAD.runChunks FrAD.cfgW 8 FrAD.DecState.new [FrAD.sC4, []]).map
        (fun r => r.1 ++ (FrAD.flushSt r.2.2.1).1)
      = some [[10], [20], [50], [60]])
    ∧ ((FrAD.loopRun FrAD.cfgW 16
          (FrAD.absorb FrAD.DecState.new ([FrAD.sC4, []].flatten))).map
        FrAD.loopPcmFlush
      = some [[10], [20]])
    ∧ ([[10], [20], [50], [60]] : List (List ℚ)) ≠ [[10], [20]] := by
  refine ⟨by decide, by decide, by decide⟩

/-- C4 (amended): as long as no reconfig boundary is crossed — every
per-call exit is needData — feeding the chunks of a partition through
consecutive `process` calls on a fresh decoder equals the single call on the
concatenated bytes with the combined fuel: same PCM, same events, same final
state (hence the same final flush). -/
theorem FrAD.C4_partial_feed_amended (cfg : FrAD.Cfg)
    (hM : FrAD.RbMono cfg.rb) (hI : FrAD.RbIncr cfg.rb)
    (hS : FrAD.RbStash cfg.rb) (hU : FrAD.RbUnset cfg.rb)
    (chunks : List (List Nat)) (fuel : Nat) (out : List (List ℚ))
    (evs : List FrAD.Ev) (st' : FrAD.DecState) (exs : List FrAD.ExitR)
    (hne : chunks ≠ [])
    (hrun : FrAD.runChunks cfg fuel FrAD.DecState.new chunks
      = some (out, evs, st', exs))
    (hexs : ∀ x ∈ exs, x = FrAD.ExitR.needData) :
    FrAD.loopRun cfg (fuel * chunks.length)
        (FrAD.absorb FrAD.DecState.new chunks.flatten)
      = some (.ok out evs st' .needData) :=
  FrAD.runChunks_single cfg hM hI hS hU chunks FrAD.DecState.new fuel
    out evs st' exs hne hrun hexs

/-- C4 witness: a header split across two chunks — the chunked feed parses
it incrementally and the single combined call produces the same PCM, events
and final state. -/
theorem FrAD.C4_witness :
    FrAD.runChunks FrAD.cfgW 8 FrAD.DecState.new FrAD.chunks0
      = some ([[10], [20]], [FrAD.Ev.adopt FrAD.hdrW], FrAD.stW,
          [.needData, .needData])
    ∧ FrAD.loopRun FrAD.cfgW (8 * FrAD.chunks0.length)
        (FrAD.absorb FrAD.DecState.new FrAD.chunks0.flatten)
      = some (.ok [[10], [20]] [FrAD.Ev.adopt FrAD.hdrW] FrAD.stW
          .needData) :=
  ⟨by decide,
   FrAD.C4_partial_feed_amended FrAD.cfgW FrAD.toyRb_mono FrAD.toyRb_incr
     FrAD.toyRb_stash FrAD.toyRb_unset FrAD.chunks0 8 [[10], [20]]
     [FrAD.Ev.adopt FrAD.hdrW] FrAD.stW [.needData, .needData]
     (by decide) (by decide) (by decide)⟩

/-- C9: on a freshly constructed decoder, every reconfig event in the event
trace of any chunked feed is preceded by an adopt event: the
critical-parameter flush-and-return fires only once the info snapshot is
non-empty, and the first complete header is adopted silently. -/
theorem FrAD.C9_reconfig_only_after_adopt (cfg : FrAD.Cfg) (fuel : Nat)
    (chunks : List (List Nat)) (out : List (List ℚ)) (evs : List FrAD.Ev)
    (st' : FrAD.DecState) (exs : List FrAD.ExitR)
    (h : FrAD.runChunks cfg fuel FrAD.DecState.new chunks
      = some (out, evs, st', exs)) :
    FrAD.goodTrace false evs = true :=
  FrAD.runChunks_trace cfg fuel chunks FrAD.DecState.new false out evs st'
    exs (fun hz => absurd hz (by decide)) h

/-- C9 witness: the three-header stream adopts its first header silently and
only then reconfigures; the trace predicate holds on the concrete run. -/
theorem FrAD.C9_witness :
    FrAD.runChunks FrAD.cfgW 8 FrAD.DecState.new [FrAD.sC4]
      = some ([[10], [20]],
          [FrAD.Ev.adopt FrAD.hdrW, FrAD.Ev.reconfig 48],
          ⟨FrAD.ASFH.new, FrAD.ASFH.new,
            [30, 40] ++ FrAD.cxHdr 44 ++ [50, 60], []⟩,
          [.reconfigd 48])
    ∧ FrAD.goodTrace false
        [FrAD.Ev.adopt FrAD.hdrW, FrAD.Ev.reconfig 48] = true :=
  ⟨by decide,
   FrAD.C9_reconfig_only_after_adopt FrAD.cfgW 8 [FrAD.sC4] [[10], [20]]
     [FrAD.Ev.adopt FrAD.hdrW, FrAD.Ev.reconfig 48]
     ⟨FrAD.ASFH.new, FrAD.ASFH.new,
       [30, 40] ++ FrAD.cxHdr 44 ++ [50, 60], []⟩
     [.reconfigd 48] (by decide)⟩

/-- C10: profile 0 digital on an empty payload returns none (the panic on
indexing the empty coefficient matrix) for every depth index, channel count,
endianness and kernel instantiation, rather than an empty PCM block; hence a
well-formed header declaring zero payload bytes crashes the decode engine
instead of emitting zero samples. -/
theorem FrAD.C10_empty_payload_crashes :
    (∀ (dec2 dec4 dec8 : List Nat → Bool → ℚ) (idct : List ℚ → List ℚ)
        (bits channels : Nat) (le : Bool),
      FrAD.digital0 dec2 dec4 dec8 idct [] bits channels le = none)
    ∧ FrAD.loopRun FrAD.cfg10 4
        (FrAD.absorb FrAD.DecState.new
          (FrAD.FRM_SIGN ++ [0, 48, 1, 0, 0, 0, 0, 0]))
      = some .crashed :=
  ⟨FrAD.digital0_nil, by decide⟩

/-- C6: crc32 applied to the ASCII bytes of the nine digits one to nine
returns the big-endian bytes CB F4 39 26, and crc16_ansi applied to the same
input returns BB 3D. -/
theorem FrAD.C6_crc_check_vectors :
    FrAD.crc32 [49, 50, 51, 52, 53, 54, 55, 56, 57] = [0xCB, 0xF4, 0x39, 0x26] ∧
    FrAD.crc16_ansi [49, 50, 51, 52, 53, 54, 55, 56, 57] = [0xBB, 0x3D] := by
  constructor <;> rfl

/-- C7: decode_rs splits the input into consecutive chunks of
`dlen + codelen` bytes (which concatenate back to the input, each of length at
most the block size, all of exactly the block size but possibly the last) and
concatenates, in order and per chunk, the corrected information bytes of a
successfully decoded block, or exactly `dlen` zero bytes for an uncorrectable
block. -/
theorem FrAD.C7_decode_rs_block_policy (rsdec : List Nat → Option (List Nat))
    (data : List Nat) (dlen codelen : Nat) (h : 0 < dlen + codelen) :
    (FrAD.chunksOf (dlen + codelen) data).flatten = data ∧
    (∀ c ∈ FrAD.chunksOf (dlen + codelen) data, c.length ≤ dlen + codelen) ∧
    FrAD.decode_rs rsdec data dlen codelen
      = ((FrAD.chunksOf (dlen + codelen) data).map
          (fun c => (rsdec c).getD (List.replicate dlen 0))).flatten := by
  refine ⟨FrAD.chunksOf_flatten _ (by omega) data,
          FrAD.chunksOf_length_le _ data, ?_⟩
  unfold FrAD.decode_rs
  rw [FrAD.foldl_append_eq_flatten_map]
  simp only [List.nil_append]
  congr 1
  refine List.map_congr_left fun c hc => ?_
  cases rsdec c <;> rfl

/-- Witness for C7 at a concrete input: data of five bytes, one information
byte and one parity byte per block, middle block uncorrectable. -/
theorem FrAD.C7_witness :
    0 < 1 + 1 ∧
    ((FrAD.chunksOf (1 + 1) [1, 2, 3, 4, 5]).flatten = [1, 2, 3, 4, 5] ∧
     (∀ c ∈ FrAD.chunksOf (1 + 1) [1, 2, 3, 4, 5], c.length ≤ 1 + 1) ∧
     FrAD.decode_rs FrAD.rsdecW [1, 2, 3, 4, 5] 1 1
       = ((FrAD.chunksOf (1 + 1) [1, 2, 3, 4, 5]).map
           (fun c => (FrAD.rsdecW c).getD (List.replicate 1 0))).flatten) :=
  ⟨by decide, FrAD.C7_decode_rs_block_policy FrAD.rsdecW [1, 2, 3, 4, 5] 1 1 (by decide)⟩

/-- C8 counterexample: on ten bytes with dlen 4, codelen 2 the final ragged
block [7, 8, 9, 10] contributes its first length - codelen = 2 bytes, not its
first dlen = 4 bytes as the claim states. -/
theorem FrAD.C8_counterexample :
    FrAD.unecc [1, 2, 3, 4, 5, 6, 7, 8, 9, 10] 4 2 = [1, 2, 3, 4, 7, 8] ∧
    ((FrAD.chunksOf (4 + 2) [1, 2, 3, 4, 5, 6, 7, 8, 9, 10]).map
        (fun c => c.take 4)).flatten = [1, 2, 3, 4, 7, 8, 9, 10] ∧
    ([1, 2, 3, 4, 7, 8] : List Nat) ≠ [1, 2, 3, 4, 7, 8, 9, 10] := by
  refine ⟨by decide, by decide, by decide⟩

/-- C8 amended: unecc keeps the first `block length - codelen` bytes of each
consecutive `dlen + codelen` block; in particular, when the data length is a
multiple of the block size every block is full and exactly its first `dlen`
information bytes are kept. -/
theorem FrAD.C8_unecc_amended (data : List Nat) (dlen codelen : Nat)
    (h : 0 < dlen + codelen) (hdvd : (dlen + codelen) ∣ data.length) :
    FrAD.unecc data dlen codelen
      = ((FrAD.chunksOf (dlen + codelen) data).map (fun c => c.take dlen)).flatten := by
  unfold FrAD.unecc
  rw [FrAD.foldl_append_eq_flatten_map]
  simp only [List.nil_append]
  congr 1
  refine List.map_congr_left fun c hc => ?_
  rw [FrAD.chunksOf_full (dlen + codelen) (by omega) data hdvd c hc]
  congr 1
  omega

/-- C2: the escalation loop of profile 0 analogue mandates depth index 2 for a
12-bit request whose largest coefficient magnitude is 2^17, but the function
packs at the original 12-bit depth (the packer below returns its depth
argument as the payload, which comes out as 12) and returns the original
index 0; and a magnitude exceeding the dynamic range of the last table entry
drives the loop into an out-of-range access to FLOAT_DR (index 6), never into
the designated overflow panic. -/
theorem FrAD.C2_escalation_discarded_and_oob :
    FrAD.analogue0 (fun _ => [(131072 : ℚ)]) (fun _ b _ => [b]) [[0]] 12 false
      = some ([12], 0, 1) ∧
    FrAD.escalate 131072 0 = .ok 2 ∧
    FrAD.escalate ((2 ^ 1025 : Nat) : ℚ) 0 = .tableOOB := by
  refine ⟨by decide, by decide, by decide⟩

/-- C5 counterexample: the int64 value 2^62 does not survive the round trip —
the encoder computes `(n << 1) - 1 + (1 << 62)` in i64, which wraps, and the
stream decodes to -2^62. -/
theorem FrAD.C5_counterexample :
    FrAD.exp_golomb_decode (FrAD.exp_golomb_encode [4611686018427387904])
      = some [-4611686018427387904] ∧
    (some [(-4611686018427387904 : Int)] : Option (List Int))
      ≠ some [4611686018427387904] := by
  refine ⟨by decide, by decide⟩

/-- C5 amended: exp-Golomb decode inverts encode on every finite sequence of
int64 values of magnitude at most 2^61 - 1 (the empty sequence included); the
full int64 range fails by overflow of the zigzag bias. -/
theorem FrAD.C5_amended_roundtrip (ns : List Int)
    (h : ∀ n ∈ ns, n.natAbs ≤ 2 ^ 61 - 1) :
    FrAD.exp_golomb_decode (FrAD.exp_golomb_encode ns) = some ns := by
  unfold FrAD.exp_golomb_encode
  by_cases hns : ns = []
  · subst hns
    rw [if_pos rfl]
    rfl
  · rw [if_neg hns]
    refine FrAD.eg_roundtripK _ ns ?_ h
    rcases hM : (ns.map FrAD.iabs64).max? with _ | M
    · rw [List.max?_eq_none_iff] at hM
      rw [List.map_eq_nil_iff] at hM
      exact absurd hM hns
    · have hmem : M ∈ ns.map FrAD.iabs64 :=
        List.max?_mem (fun a b => max_choice a b) hM
      obtain ⟨n0, hn0, rfl⟩ := List.mem_map.1 hmem
      have hb := h n0 hn0
      have hM2 : FrAD.iabs64 n0 ≤ 2 ^ 61 - 1 ∧ 0 ≤ FrAD.iabs64 n0 := by
        unfold FrAD.iabs64
        split
        · omega
        · rw [Int.abs_eq_natAbs]
          omega
      simp only [Option.getD_some]
      unfold FrAD.egK
      split
      · refine le_trans (FrAD.ceilLog2_le _ 61 ?_) (by norm_num)
        omega
      · omega

/-- Witness for C5 amended on a small concrete sequence. -/
theorem FrAD.C5_witness :
    (∀ n ∈ ([3, -5, 0] : List Int), n.natAbs ≤ 2 ^ 61 - 1) ∧
    FrAD.exp_golomb_decode (FrAD.exp_golomb_encode [3, -5, 0]) = some [3, -5, 0] :=
  ⟨by decide, FrAD.C5_amended_roundtrip [3, -5, 0] (by decide)⟩

/-- C1 counterexample: profile 1 (COMPACT), olap 4, a four-row frame, empty
previous fragment.  The code stores the suffix after the cut at
`len * (olap - 1) / olap = 3`, so the stored fragment has length 1, while the
claim asserts length `frame_length * (olap - 1) / olap = 3`. -/
theorem FrAD.C1_counterexample :
    FrAD.overlapStep { profile := 1, olap := 4, channels := 1 } []
        [[0], [0], [0], [0]]
      = some ([[0], [0], [0]], [[0]]) ∧
    (4 : Nat) * (4 - 1) / 4 = 3 ∧ (1 : Nat) ≠ 3 := by
  refine ⟨by decide, by decide, by decide⟩

/-- C1 amended: after a successful overlap step on a COMPACT profile with
`olap ≠ 0` (olap clamped to at least 2) the stored fragment is the suffix
after the cut, of length `frame_length - frame_length * (olap - 1) / olap`,
and the emitted prefix has length `frame_length * (olap - 1) / olap`; on a
non-compact profile or with `olap = 0` the stored fragment is empty and the
whole frame is emitted. -/
theorem FrAD.C1_amended_overlap_tail (a : FrAD.ASFH)
    (frag frame out frag2 : List (List ℚ))
    (h : FrAD.overlapStep a frag frame = some (out, frag2)) :
    ((FrAD.COMPACT.contains a.profile ∧ a.olap ≠ 0) →
        frag2.length
          = frame.length - frame.length * (max a.olap 2 - 1) / max a.olap 2 ∧
        out.length = frame.length * (max a.olap 2 - 1) / max a.olap 2) ∧
    (¬(FrAD.COMPACT.contains a.profile ∧ a.olap ≠ 0) →
        frag2 = [] ∧ out.length = frame.length) := by
  unfold FrAD.overlapStep at h
  split at h
  · exact absurd h (by simp)
  · have hlen : (if frag.isEmpty then frame
        else FrAD.crossfade a.channels frag frame).length = frame.length := by
      split
      · rfl
      · exact FrAD.crossfade_length a.channels frag frame
    by_cases hc : (FrAD.COMPACT.contains a.profile = true) ∧ a.olap ≠ 0
    · rw [if_pos hc] at h
      have hcut : frame.length * (max a.olap 2 - 1) / max a.olap 2
          ≤ frame.length := by
        have hol : 0 < max a.olap 2 := by omega
        calc frame.length * (max a.olap 2 - 1) / max a.olap 2
            ≤ frame.length * max a.olap 2 / max a.olap 2 :=
              Nat.div_le_div_right
                (Nat.mul_le_mul_left frame.length (Nat.sub_le _ _))
          _ = frame.length := Nat.mul_div_cancel frame.length hol
      have hout : out = (if frag.isEmpty then frame
          else FrAD.crossfade a.channels frag frame).take
            ((if frag.isEmpty then frame
              else FrAD.crossfade a.channels frag frame).length
              * (max a.olap 2 - 1) / max a.olap 2) := by
        have := congrArg (fun p => p.map Prod.fst) h
        simpa using this.symm
      have hfrag2 : frag2 = (if frag.isEmpty then frame
          else FrAD.crossfade a.channels frag frame).drop
            ((if frag.isEmpty then frame
              else FrAD.crossfade a.channels frag frame).length
              * (max a.olap 2 - 1) / max a.olap 2) := by
        have := congrArg (fun p => p.map Prod.snd) h
        simpa using this.symm
      refine ⟨fun _ => ⟨?_, ?_⟩, fun hnc => absurd hc hnc⟩
      · rw [hfrag2, List.length_drop, hlen]
      · rw [hout, List.length_take, hlen, Nat.min_eq_left hcut]
    · rw [if_neg hc] at h
      have hout : out = (if frag.isEmpty then frame
          else FrAD.crossfade a.channels frag frame) := by
        have := congrArg (fun p => p.map Prod.fst) h
        simpa using this.symm
      have hfrag2 : frag2 = [] := by
        have := congrArg (fun p => p.map Prod.snd) h
        simpa using this.symm
      exact ⟨fun hcc => absurd hcc hc, fun _ => ⟨hfrag2, by rw [hout, hlen]⟩⟩

/-- Witness for C1 amended: profile 1, olap 16, an eight-row mono frame; the
cut is at 8 * 15 / 16 = 7, the stored fragment has length 8 - 7 = 1. -/
theorem FrAD.C1_witness :
    FrAD.overlapStep { profile := 1, olap := 16, channels := 1 } []
        [[0], [0], [0], [0], [0], [0], [0], [0]]
      = some ([[0], [0], [0], [0], [0], [0], [0]], [[0]]) ∧
    (((FrAD.COMPACT.contains ({ profile := 1, olap := 16, channels := 1 }
          : FrAD.ASFH).profile ∧
        ({ profile := 1, olap := 16, channels := 1 } : FrAD.ASFH).olap ≠ 0) →
        ([[(0 : ℚ)]] : List (List ℚ)).length = 8 - 8 * (max 16 2 - 1) / max 16 2 ∧
        ([[(0 : ℚ)], [0], [0], [0], [0], [0], [0]] : List (List ℚ)).length
          = 8 * (max 16 2 - 1) / max 16 2) ∧
      (¬(FrAD.COMPACT.contains ({ profile := 1, olap := 16, channels := 1 }
          : FrAD.ASFH).profile ∧
        ({ profile := 1, olap := 16, channels := 1 } : FrAD.ASFH).olap ≠ 0) →
        ([[(0 : ℚ)]] : List (List ℚ)) = [] ∧
        ([[(0 : ℚ)], [0], [0], [0], [0], [0], [0]] : List (List ℚ)).length = 8)) :=
  ⟨by decide,
   by
    have := FrAD.C1_amended_overlap_tail
      { profile := 1, olap := 16, channels := 1 } []
      [[0], [0], [0], [0], [0], [0], [0], [0]]
      [[0], [0], [0], [0], [0], [0], [0]] [[0]] (by decide)
    simpa using this⟩

/-- Witness for C8 amended at a block-aligned concrete input. -/
theorem FrAD.C8_witness :
    (0 < 4 + 2 ∧ (4 + 2) ∣ ([1, 2, 3, 4, 5, 6, 7, 8, 9, 10, 11, 12] : List Nat).length) ∧
    FrAD.unecc [1, 2, 3, 4, 5, 6, 7, 8, 9, 10, 11, 12] 4 2
      = ((FrAD.chunksOf (4 + 2) [1, 2, 3, 4, 5, 6, 7, 8, 9, 10, 11, 12]).map
          (fun c => c.take 4)).flatten :=
  ⟨⟨by decide, by decide⟩,
   FrAD.C8_unecc_amended [1, 2, 3, 4, 5, 6, 7, 8, 9, 10, 11, 12] 4 2
     (by decide) (by decide)⟩

